import Mathlib

/-!
Shallow embedding of the DPLL SAT solver of `src/solver/og_solver.py`
(class `SatSolver`) together with the heuristics of
`src/solver/heuristics.py`, and proofs of the specification claims.

Conventions of the embedding:
* a literal is an `Int`, a clause a `List Int`, a formula a `List` of
  clauses, exactly as in the Python source;
* the `-1` conflict marker returned by `propagate_unit` is modelled by
  `Option`: `none` is the conflict marker;
* the `while` loop of `get_unit_clauses` and the recursion of `solve`
  are given an explicit fuel parameter; running out of fuel is a
  distinguished outcome (`none`, resp. `SolveRes.out`) and we prove
  below that fuel `(fvars cnf).card + 1` never runs out, which is the
  termination argument for the Python code;
* a Python exception (IndexError / ValueError from `select_literal` on
  a formula with an empty clause, or the TypeError raised when `solve`
  receives the integer `-1` as its `cnf` argument) is `SolveRes.exn`;
* the instance state `self.metrics` is threaded explicitly;
* Jeroslow-Wang weights use exact rationals where Python uses floats;
  no theorem below depends on the numeric value of a weight, only on
  which literals are candidates.
-/

namespace SatSolver

abbrev Clause := List Int
abbrev Formula := List Clause

/-- Metrics dictionary of `SatSolver.__init__` (og_solver.py lines 20-26),
field order as in the Python dict. -/
structure Metrics where
  decisions : Nat
  backtracks : Nat
  conflicts : Nat
  propagations : Nat
  unit_clauses_resolved : Nat
deriving DecidableEq

/-- The metrics of a freshly constructed solver: all counters zero. -/
def initMetrics : Metrics := ⟨0, 0, 0, 0, 0⟩

/-- Componentwise sum of two metrics records. -/
def madd (a b : Metrics) : Metrics :=
  ⟨a.decisions + b.decisions, a.backtracks + b.backtracks, a.conflicts + b.conflicts,
   a.propagations + b.propagations, a.unit_clauses_resolved + b.unit_clauses_resolved⟩

/-- The counter updates of one `get_unit_clauses` iteration (og_solver.py
lines 71-72): `unit_clauses_resolved += 1; propagations += 1`. -/
def mstep (m : Metrics) : Metrics :=
  { m with unit_clauses_resolved := m.unit_clauses_resolved + 1,
           propagations := m.propagations + 1 }

/-- The update `conflicts += 1` (og_solver.py line 120). -/
def mconf (m : Metrics) : Metrics := { m with conflicts := m.conflicts + 1 }

/-- The update `decisions += 1` (og_solver.py line 125). -/
def mdec (m : Metrics) : Metrics := { m with decisions := m.decisions + 1 }

/-- The update `backtracks += 1` (og_solver.py line 130). -/
def mback (m : Metrics) : Metrics := { m with backtracks := m.backtracks + 1 }

/-- BCP, `SatSolver.propagate_unit` (og_solver.py lines 28-52).
`none` models the `-1` conflict marker.  The Python loop returns `-1` as
soon as some clause becomes empty; returning `none` from the recursion
propagates outward to the same overall result. -/
def propagate_unit (cnf : Formula) (unit : Int) : Option Formula :=
  match cnf with
  | [] => some []
  | clause :: rest =>
    if unit ∈ clause then
      propagate_unit rest unit
    else if -unit ∈ clause then
      let new_clause := clause.filter (fun l => decide (l ≠ -unit))
      if new_clause = [] then none
      else Option.map (fun r => new_clause :: r) (propagate_unit rest unit)
    else
      Option.map (fun r => clause :: r) (propagate_unit rest unit)

/-- Concatenation of all clauses of a formula, in scan order (the order in
which the Python `for clause in cnf: for literal in clause` loops visit
the literals). -/
def litsOf : Formula → List Int
  | [] => []
  | c :: rest => c ++ litsOf rest

/-- The set of variable identifiers (absolute values of literals)
occurring in a formula. -/
def fvars (cnf : Formula) : Finset Nat := ((litsOf cnf).map Int.natAbs).toFinset

/-- Unit-clause cascade, `SatSolver.get_unit_clauses` (og_solver.py lines
54-81).  `acc` is the local variable `assignments` (initially `[]`), `fuel`
bounds the number of iterations of the `while` loop.  Result `none` is
fuel exhaustion; `some (none, m)` is the `return -1, []` conflict case;
`some (some (cnf, assignments), m)` is a normal return. -/
def get_unit_clauses (fuel : Nat) (cnf : Formula) (acc : List Int) (m : Metrics) :
    Option (Option (Formula × List Int) × Metrics) :=
  match fuel with
  | 0 => none
  | fuel + 1 =>
    match cnf.find? (fun c => c.length == 1) with
    | none => some (some (cnf, acc), m)
    | some c =>
      match propagate_unit cnf (c.headD 0) with
      | none => some (none, mstep m)
      | some cnf1 =>
        if cnf1 = [] then some (some (cnf1, acc ++ [c.headD 0]), mstep m)
        else get_unit_clauses fuel cnf1 (acc ++ [c.headD 0]) (mstep m)

/-- Python `max(xs, key=score)`: the first element of `xs` whose score is
maximal; `none` when `xs` is empty (Python raises ValueError). -/
def pymaxBy {β : Type} [LinearOrder β] (score : Int → β) : List Int → Option Int
  | [] => none
  | x :: xs => some (xs.foldl (fun b y => if score b < score y then y else b) x)

/-- Key list of a Python `defaultdict` filled by scanning `l` left to
right: the distinct values of `l` in order of first occurrence. -/
def pyKeys (l : List Int) : List Int :=
  l.foldl (fun acc x => if x ∈ acc then acc else acc ++ [x]) []

/-- Weight `2 ** -len(clause)` contributed by one clause. -/
def clauseWeight (c : Clause) : Rat := ((1 : Rat) / 2) ^ c.length

/-- Accumulated Jeroslow-Wang weight of the exact literal `l`
(heuristics.py lines 14-17): each occurrence of `l` in a clause adds the
clause's weight. -/
def jwWeight (cnf : Formula) (l : Int) : Rat :=
  (cnf.map (fun c => (c.count l : Rat) * clauseWeight c)).sum

/-- One-sided Jeroslow-Wang, `jersolow` (heuristics.py lines 4-19). -/
def jersolow (cnf : Formula) : Option Int :=
  pymaxBy (jwWeight cnf) (pyKeys (litsOf cnf))

/-- Accumulated two-sided weight of the variable key `abs(literal)`
(heuristics.py lines 32-35). -/
def jwSidedWeight (cnf : Formula) (v : Int) : Rat :=
  (cnf.map (fun c =>
    ((c.filter (fun l => decide ((l.natAbs : Int) = v))).length : Rat) * clauseWeight c)).sum

/-- Two-sided Jeroslow-Wang, `jersolow_sided` (heuristics.py lines 22-37);
dictionary keys are `abs(literal)`. -/
def jersolow_sided (cnf : Formula) : Option Int :=
  pymaxBy (jwSidedWeight cnf) (pyKeys ((litsOf cnf).map (fun l => (l.natAbs : Int))))

/-- The running minimum clause length computed by `moms_heuristic`
(heuristics.py lines 50-57); `0` for the empty formula, where Python
keeps `float('inf')` and the counts dictionary stays empty. -/
def minSize : Formula → Nat
  | [] => 0
  | c :: rest => rest.foldl (fun m d => min m d.length) c.length

/-- The clauses of minimum length, whose literals `moms_heuristic`
counts: a clause counted at some point of the scan survives to the final
dictionary exactly when its length equals the overall minimum. -/
def momsClauses (cnf : Formula) : Formula :=
  cnf.filter (fun c => c.length == minSize cnf)

/-- Occurrence count of `l` among the minimum-size clauses. -/
def momsCount (cnf : Formula) (l : Int) : Nat := (litsOf (momsClauses cnf)).count l

/-- MOM's heuristic, `moms_heuristic` (heuristics.py lines 40-61). -/
def moms_heuristic (cnf : Formula) : Option Int :=
  pymaxBy (momsCount cnf) (pyKeys (litsOf (momsClauses cnf)))

/-- The positive literal occurrences of the formula, in scan order
(heuristics.py lines 77-80: `positive_counts[literal] += 1` for
`literal > 0`). -/
def posOcc (cnf : Formula) : List Int := (litsOf cnf).filter (fun l => decide (0 < l))

/-- The keys `-literal` fed to `negative_counts` (heuristics.py lines
81-82), in scan order. -/
def negOcc (cnf : Formula) : List Int :=
  (((litsOf cnf).filter (fun l => decide (¬ 0 < l))).map (fun l => -l))

/-- Value of `positive_counts.get(v, 0)`. -/
def posCountD (cnf : Formula) (v : Int) : Nat := (posOcc cnf).count v

/-- Value of `negative_counts.get(v, 0)`. -/
def negCountD (cnf : Formula) (v : Int) : Nat := (negOcc cnf).count v

/-- DLIS as implemented, `dlis` (heuristics.py lines 64-89): the
candidate list is `list(positive_counts.keys()) + list(negative_counts.keys())`,
the key function is `positive_counts.get(l, 0) + negative_counts.get(l, 0)`,
and the winner `v` is returned positive iff its positive count is at
least its negative count. -/
def dlis (cnf : Formula) : Option Int :=
  match pymaxBy (fun v => posCountD cnf v + negCountD cnf v)
      (pyKeys (posOcc cnf) ++ pyKeys (negOcc cnf)) with
  | none => none
  | some v => some (if negCountD cnf v ≤ posCountD cnf v then v else -v)

/-- Strategy dispatch, `SatSolver.select_literal` (og_solver.py lines
83-102).  `none` models a Python exception (IndexError on `cnf[0][0]`,
ValueError from `max` on an empty dictionary) or the implicit `None` of
an out-of-range strategy. -/
def select_literal (strategy : Nat) (cnf : Formula) : Option Int :=
  if strategy = 1 then (cnf.headD []).head?
  else if strategy = 2 then jersolow cnf
  else if strategy = 3 then jersolow_sided cnf
  else if strategy = 4 then moms_heuristic cnf
  else if strategy = 5 then dlis cnf
  else none

/-- Outcome of a `solve` call: fuel exhaustion, a Python exception, or a
normal return `(assignments, metrics)`. -/
inductive SolveRes where
  | out : SolveRes
  | exn : SolveRes
  | done : List Int → Metrics → SolveRes
deriving DecidableEq

/-- DPLL search, `SatSolver.solve` (og_solver.py lines 104-133), for a
solver constructed with the given strategy.  The cascade is run with fuel
`(fvars cnf).card + 1`, proven sufficient below (`get_unit_clauses_total`).
When `propagate_unit` returns the conflict marker for a branch, Python
passes the integer `-1` to the recursive `solve` call, whose
`get_unit_clauses` then raises TypeError: this is `SolveRes.exn`. -/
def solve (strategy : Nat) : Nat → Formula → List Int → Metrics → SolveRes
  | 0, _, _, _ => SolveRes.out
  | fuel + 1, cnf, assignments, m =>
    match get_unit_clauses ((fvars cnf).card + 1) cnf [] m with
    | none => SolveRes.out
    | some (none, m1) => SolveRes.done [] (mconf m1)
    | some (some (cnf1, units), m1) =>
      if cnf1 = [] then SolveRes.done (assignments ++ units) m1
      else
        match select_literal strategy cnf1 with
        | none => SolveRes.exn
        | some L =>
          match propagate_unit cnf1 L with
          | none => SolveRes.exn
          | some cnfL =>
            match solve strategy fuel cnfL (assignments ++ units ++ [L]) (mdec m1) with
            | SolveRes.out => SolveRes.out
            | SolveRes.exn => SolveRes.exn
            | SolveRes.done res mres =>
              if res = [] then
                match propagate_unit cnf1 (-L) with
                | none => SolveRes.exn
                | some cnfN =>
                  solve strategy fuel cnfN (assignments ++ units ++ [-L]) (mback mres)
              else SolveRes.done res mres

/-- Python mutable-default-argument semantics of `solve`: the top-level
frame's `assignments += unit_assignments` mutates, in place, the single
list object created when `def solve(..., assignments=[])` was evaluated
at class-definition time.  Given the default object's current contents
`d`, this is its contents after one more top-level `solve(cnf)` call
(recursive frames receive fresh lists and never touch the default). -/
def defaultAfter (cnf : Formula) (d : List Int) : List Int :=
  match get_unit_clauses ((fvars cnf).card + 1) cnf [] initMetrics with
  | some (some (_, units), _) => d ++ units
  | _ => d

/-- Truth value of a literal under an assignment of the variables. -/
def evalLit (σ : Nat → Bool) (l : Int) : Bool :=
  if 0 < l then σ l.natAbs else !(σ l.natAbs)

/-- Truth value of a clause: disjunction of its literals. -/
def evalClause (σ : Nat → Bool) (c : Clause) : Bool := c.any (evalLit σ)

/-- Truth value of a formula: conjunction of its clauses. -/
def evalCnf (σ : Nat → Bool) (cnf : Formula) : Bool := cnf.all (evalClause σ)

/-- Classical satisfiability of a CNF formula. -/
def satisfiable (cnf : Formula) : Prop := ∃ σ : Nat → Bool, evalCnf σ cnf = true

/-- Well-formed input per the data model of the specification: every
clause is a nonempty list of distinct nonzero literals. -/
def wfFormula (cnf : Formula) : Prop :=
  ∀ c ∈ cnf, c ≠ [] ∧ c.Nodup ∧ ∀ l ∈ c, l ≠ 0

instance wfFormula_decidable (cnf : Formula) : Decidable (wfFormula cnf) :=
  inferInstanceAs (Decidable (∀ c ∈ cnf, c ≠ [] ∧ c.Nodup ∧ ∀ l ∈ c, l ≠ 0))

/-! ### Basic lemmas about `litsOf`, `fvars` and `propagate_unit` -/

theorem mem_litsOf {l : Int} {cnf : Formula} :
    l ∈ litsOf cnf ↔ ∃ c, c ∈ cnf ∧ l ∈ c := by
  induction cnf with
  | nil => simp [litsOf]
  | cons c rest ih => simp [litsOf, ih]

theorem mem_fvars {v : Nat} {cnf : Formula} :
    v ∈ fvars cnf ↔ ∃ l, l ∈ litsOf cnf ∧ l.natAbs = v := by
  simp [fvars]

theorem natAbs_mem_fvars {l : Int} {c : Clause} {cnf : Formula}
    (hc : c ∈ cnf) (hl : l ∈ c) : l.natAbs ∈ fvars cnf :=
  mem_fvars.mpr ⟨l, mem_litsOf.mpr ⟨c, hc, hl⟩, rfl⟩

theorem propagate_unit_none_iff {cnf : Formula} {u : Int} :
    propagate_unit cnf u = none ↔
      ∃ c ∈ cnf, u ∉ c ∧ -u ∈ c ∧ c.filter (fun l => decide (l ≠ -u)) = [] := by
  induction cnf with
  | nil => simp [propagate_unit]
  | cons clause rest ih =>
    simp only [propagate_unit]
    by_cases h1 : u ∈ clause
    · simp only [if_pos h1, ih]
      constructor
      · rintro ⟨c, hc, h⟩; exact ⟨c, List.mem_cons_of_mem _ hc, h⟩
      · rintro ⟨c, hc, hnot, h⟩
        rcases List.mem_cons.mp hc with rfl | hc
        · exact absurd h1 hnot
        · exact ⟨c, hc, hnot, h⟩
    · rw [if_neg h1]
      by_cases h2 : -u ∈ clause
      · rw [if_pos h2]
        by_cases h3 : clause.filter (fun l => decide (l ≠ -u)) = []
        · rw [if_pos h3]
          exact iff_of_true rfl ⟨clause, List.mem_cons_self _ _, h1, h2, h3⟩
        · simp only [if_neg h3, Option.map_eq_none', ih]
          constructor
          · rintro ⟨c, hc, h⟩; exact ⟨c, List.mem_cons_of_mem _ hc, h⟩
          · rintro ⟨c, hc, hnot, hneg, h⟩
            rcases List.mem_cons.mp hc with rfl | hc
            · exact absurd h h3
            · exact ⟨c, hc, hnot, hneg, h⟩
      · simp only [if_neg h2, Option.map_eq_none', ih]
        constructor
        · rintro ⟨c, hc, h⟩; exact ⟨c, List.mem_cons_of_mem _ hc, h⟩
        · rintro ⟨c, hc, hnot, hneg, h⟩
          rcases List.mem_cons.mp hc with rfl | hc
          · exact absurd hneg h2
          · exact ⟨c, hc, hnot, hneg, h⟩

theorem filter_ne_eq_self {c : Clause} {u : Int} (h : -u ∉ c) :
    c.filter (fun l => decide (l ≠ -u)) = c := by
  apply List.filter_eq_self.mpr
  intro l hl
  simp only [decide_eq_true_eq]
  intro e
  exact h (e ▸ hl)

theorem propagate_unit_some_eq {cnf : Formula} {u : Int} {r : Formula}
    (h : propagate_unit cnf u = some r) :
    r = (cnf.filter (fun c => decide (u ∉ c))).map
        (fun c => c.filter (fun l => decide (l ≠ -u))) := by
  induction cnf generalizing r with
  | nil =>
    simp only [propagate_unit, Option.some.injEq] at h
    simp [← h]
  | cons clause rest ih =>
    simp only [propagate_unit] at h
    by_cases h1 : u ∈ clause
    · rw [if_pos h1] at h
      rw [ih h, List.filter_cons]
      simp [h1]
    · rw [if_neg h1] at h
      by_cases h2 : -u ∈ clause
      · rw [if_pos h2] at h
        by_cases h3 : clause.filter (fun l => decide (l ≠ -u)) = []
        · rw [if_pos h3] at h; exact absurd h (by simp)
        · rw [if_neg h3] at h
          rcases Option.map_eq_some'.mp h with ⟨r0, hr0, hr⟩
          rw [← hr, ih hr0, List.filter_cons]
          simp [h1]
      · rw [if_neg h2] at h
        rcases Option.map_eq_some'.mp h with ⟨r0, hr0, hr⟩
        have hfc : (clause :: rest).filter (fun c => decide (u ∉ c)) =
            clause :: rest.filter (fun c => decide (u ∉ c)) := by
          rw [List.filter_cons, if_pos (by simpa using h1)]
        rw [← hr, ih hr0, hfc, List.map_cons, filter_ne_eq_self h2]

theorem propagate_unit_mem {cnf : Formula} {u : Int} {r : Formula}
    (h : propagate_unit cnf u = some r) :
    ∀ c2 ∈ r, ∃ c ∈ cnf, u ∉ c ∧ c2 = c.filter (fun l => decide (l ≠ -u)) := by
  intro c2 hc2
  rw [propagate_unit_some_eq h] at hc2
  rcases List.mem_map.mp hc2 with ⟨c, hc, rfl⟩
  rcases List.mem_filter.mp hc with ⟨hmem, hdec⟩
  exact ⟨c, hmem, by simpa using hdec, rfl⟩

theorem propagate_unit_lits {cnf : Formula} {u : Int} {r : Formula}
    (h : propagate_unit cnf u = some r) :
    ∀ l ∈ litsOf r, l ∈ litsOf cnf ∧ l ≠ u ∧ l ≠ -u := by
  intro l hl
  rcases mem_litsOf.mp hl with ⟨c2, hc2, hlc2⟩
  rcases propagate_unit_mem h c2 hc2 with ⟨c, hc, hu, rfl⟩
  rcases List.mem_filter.mp hlc2 with ⟨hlc, hdec⟩
  refine ⟨mem_litsOf.mpr ⟨c, hc, hlc⟩, ?_, by simpa using hdec⟩
  intro e
  exact hu (e ▸ hlc)

theorem propagate_unit_vars {cnf : Formula} {u : Int} {r : Formula}
    (h : propagate_unit cnf u = some r) :
    fvars r ⊆ (fvars cnf).erase u.natAbs := by
  intro v hv
  rcases mem_fvars.mp hv with ⟨l, hl, rfl⟩
  rcases propagate_unit_lits h l hl with ⟨hmem, hne1, hne2⟩
  refine Finset.mem_erase.mpr ⟨?_, mem_fvars.mpr ⟨l, hmem, rfl⟩⟩
  intro e
  rcases Int.natAbs_eq_natAbs_iff.mp e with e1 | e1
  · exact hne1 e1
  · exact hne2 e1

theorem propagate_unit_vars_subset {cnf : Formula} {u : Int} {r : Formula}
    (h : propagate_unit cnf u = some r) : fvars r ⊆ fvars cnf :=
  fun _ hv => Finset.mem_of_mem_erase (propagate_unit_vars h hv)

theorem propagate_unit_back {cnf : Formula} {u : Int} {r : Formula}
    (h : propagate_unit cnf u = some r) :
    ∀ c ∈ cnf, u ∈ c ∨ ∃ c2 ∈ r, c2 ⊆ c := by
  intro c hc
  by_cases h1 : u ∈ c
  · exact Or.inl h1
  · refine Or.inr ⟨c.filter (fun l => decide (l ≠ -u)), ?_,
      fun x hx => List.mem_of_mem_filter hx⟩
    rw [propagate_unit_some_eq h]
    exact List.mem_map.mpr ⟨c, List.mem_filter.mpr ⟨hc, by simpa using h1⟩, rfl⟩

theorem propagate_unit_wf {cnf : Formula} {u : Int} {r : Formula}
    (hwf : wfFormula cnf) (h : propagate_unit cnf u = some r) : wfFormula r := by
  intro c2 hc2
  rcases propagate_unit_mem h c2 hc2 with ⟨c, hc, hu, rfl⟩
  rcases hwf c hc with ⟨hne, hnd, hnz⟩
  refine ⟨?_, hnd.filter _, fun l hl => hnz l (List.mem_of_mem_filter hl)⟩
  intro hemp
  by_cases h2 : -u ∈ c
  · have : propagate_unit cnf u = none :=
      propagate_unit_none_iff.mpr ⟨c, hc, hu, h2, hemp⟩
    rw [this] at h
    exact absurd h (by simp)
  · rw [filter_ne_eq_self h2] at hemp
    exact hne hemp

theorem evalLit_neg {σ : Nat → Bool} {u : Int} (hu : u ≠ 0) :
    evalLit σ (-u) = !(evalLit σ u) := by
  rcases lt_trichotomy u 0 with h | h | h
  · have h1 : 0 < -u := by omega
    have h2 : ¬ 0 < u := by omega
    simp [evalLit, h1, h2, Int.natAbs_neg]
  · exact absurd h hu
  · have h1 : ¬ 0 < -u := by omega
    simp [evalLit, h1, h, Int.natAbs_neg]

theorem evalClause_mem {σ : Nat → Bool} {c : Clause} {l : Int}
    (hl : l ∈ c) (h : evalLit σ l = true) : evalClause σ c = true :=
  List.any_eq_true.mpr ⟨l, hl, h⟩

theorem evalCnf_mem {σ : Nat → Bool} {cnf : Formula} {c : Clause}
    (h : evalCnf σ cnf = true) (hc : c ∈ cnf) : evalClause σ c = true :=
  List.all_eq_true.mp h c hc

theorem propagate_unit_sat {σ : Nat → Bool} {cnf : Formula} {u : Int}
    (hu : u ≠ 0) (htrue : evalLit σ u = true) (hsat : evalCnf σ cnf = true) :
    (propagate_unit cnf u ≠ none) ∧
      ∀ r, propagate_unit cnf u = some r → evalCnf σ r = true := by
  constructor
  · intro hnone
    rcases propagate_unit_none_iff.mp hnone with ⟨c, hc, _, hneg, hfilter⟩
    have hcl := evalCnf_mem hsat hc
    rcases List.any_eq_true.mp hcl with ⟨l, hl, hltrue⟩
    have : l = -u := by
      by_contra hne
      have : l ∈ c.filter (fun l => decide (l ≠ -u)) :=
        List.mem_filter.mpr ⟨hl, by simpa using hne⟩
      rw [hfilter] at this
      exact absurd this (List.not_mem_nil _)
    rw [this, evalLit_neg hu, htrue] at hltrue
    exact absurd hltrue (by simp)
  · intro r hr
    apply List.all_eq_true.mpr
    intro c2 hc2
    rcases propagate_unit_mem hr c2 hc2 with ⟨c, hc, _, rfl⟩
    have hcl := evalCnf_mem hsat hc
    rcases List.any_eq_true.mp hcl with ⟨l, hl, hltrue⟩
    have hlne : l ≠ -u := by
      intro e
      rw [e, evalLit_neg hu, htrue] at hltrue
      exact absurd hltrue (by simp)
    exact evalClause_mem (List.mem_filter.mpr ⟨hl, by simpa using hlne⟩) hltrue

/-! ### Lemmas about the unit-clause cascade `get_unit_clauses` -/

theorem wf_lits_nonzero {cnf : Formula} (hwf : wfFormula cnf) :
    ∀ l ∈ litsOf cnf, l ≠ 0 := by
  intro l hl
  rcases mem_litsOf.mp hl with ⟨c, hc, hlc⟩
  exact (hwf c hc).2.2 l hlc

theorem propagate_unit_lits_nonzero {cnf : Formula} {u : Int} {r : Formula}
    (h : propagate_unit cnf u = some r) (hnz : ∀ l ∈ litsOf cnf, l ≠ 0) :
    ∀ l ∈ litsOf r, l ≠ 0 :=
  fun l hl => hnz l (propagate_unit_lits h l hl).1

/-- Inversion principle for one step of the cascade. -/
theorem get_unit_clauses_succ_cases {n : Nat} {cnf : Formula} {acc : List Int} {m : Metrics}
    {r : Option (Formula × List Int)} {m1 : Metrics}
    (h : get_unit_clauses (n + 1) cnf acc m = some (r, m1)) :
    (cnf.find? (fun c => c.length == 1) = none ∧ r = some (cnf, acc) ∧ m1 = m) ∨
    (∃ u, [u] ∈ cnf ∧
      ((propagate_unit cnf u = none ∧ r = none ∧ m1 = mstep m) ∨
       (propagate_unit cnf u = some [] ∧ r = some ([], acc ++ [u]) ∧ m1 = mstep m) ∨
       (∃ cnf1, propagate_unit cnf u = some cnf1 ∧ cnf1 ≠ [] ∧
         get_unit_clauses n cnf1 (acc ++ [u]) (mstep m) = some (r, m1)))) := by
  rw [get_unit_clauses] at h
  split at h
  · rename_i hf
    simp only [Option.some.injEq, Prod.mk.injEq] at h
    exact Or.inl ⟨hf, h.1.symm, h.2.symm⟩
  · rename_i c hf
    have hc := List.mem_of_find?_eq_some hf
    have hlen : c.length = 1 := by simpa using List.find?_some hf
    obtain ⟨u, rfl⟩ := List.length_eq_one.mp hlen
    simp only [List.headD_cons] at h
    refine Or.inr ⟨u, hc, ?_⟩
    split at h
    · rename_i hp
      simp only [Option.some.injEq, Prod.mk.injEq] at h
      exact Or.inl ⟨hp, h.1.symm, h.2.symm⟩
    · rename_i cnf1 hp
      split at h
      · rename_i he
        subst he
        simp only [Option.some.injEq, Prod.mk.injEq] at h
        exact Or.inr (Or.inl ⟨hp, h.1.symm, h.2.symm⟩)
      · rename_i he
        exact Or.inr (Or.inr ⟨cnf1, hp, he, h⟩)

theorem get_unit_clauses_total :
    ∀ (fuel : Nat) (cnf : Formula) (acc : List Int) (m : Metrics),
      (fvars cnf).card < fuel → get_unit_clauses fuel cnf acc m ≠ none := by
  intro fuel
  induction fuel with
  | zero => intro cnf acc m h; exact absurd h (Nat.not_lt_zero _)
  | succ n ih =>
    intro cnf acc m h
    rw [get_unit_clauses]
    split
    · simp
    · rename_i c hf
      have hc := List.mem_of_find?_eq_some hf
      have hlen : c.length = 1 := by simpa using List.find?_some hf
      obtain ⟨u, rfl⟩ := List.length_eq_one.mp hlen
      simp only [List.headD_cons]
      split
      · simp
      · rename_i cnf1 hp
        split
        · simp
        · apply ih
          have hu : u.natAbs ∈ fvars cnf := natAbs_mem_fvars hc (by simp)
          have hlt : (fvars cnf1).card < (fvars cnf).card :=
            lt_of_le_of_lt (Finset.card_le_card (propagate_unit_vars hp))
              (Finset.card_erase_lt_of_mem hu)
          omega

theorem get_unit_clauses_acc :
    ∀ (fuel : Nat) (cnf : Formula) (acc : List Int) (m : Metrics) {cnf1 units m1},
      get_unit_clauses fuel cnf acc m = some (some (cnf1, units), m1) →
      ∃ ext, units = acc ++ ext ∧ (ext = [] → cnf1 = cnf) := by
  intro fuel
  induction fuel with
  | zero => intro cnf acc m cnf1 units m1 h; exact absurd h (by rw [get_unit_clauses]; simp)
  | succ n ih =>
    intro cnf acc m cnf1 units m1 h
    rcases get_unit_clauses_succ_cases h with ⟨_, hr, _⟩ | ⟨u, _, hcase⟩
    · simp only [Option.some.injEq, Prod.mk.injEq] at hr
      exact ⟨[], by simp [hr.2], fun _ => hr.1⟩
    · rcases hcase with ⟨_, hr, _⟩ | ⟨_, hr, _⟩ | ⟨cnfmid, _, _, hrec⟩
      · exact absurd hr (by simp)
      · simp only [Option.some.injEq, Prod.mk.injEq] at hr
        exact ⟨[u], by simp [hr.2], by simp⟩
      · rcases ih cnfmid (acc ++ [u]) (mstep m) hrec with ⟨ext, hext, _⟩
        exact ⟨u :: ext, by simp [hext], by simp⟩

theorem get_unit_clauses_no_units :
    ∀ (fuel : Nat) (cnf : Formula) (acc : List Int) (m : Metrics) {cnf1 units m1},
      get_unit_clauses fuel cnf acc m = some (some (cnf1, units), m1) →
      ∀ c ∈ cnf1, c.length ≠ 1 := by
  intro fuel
  induction fuel with
  | zero => intro cnf acc m cnf1 units m1 h; exact absurd h (by rw [get_unit_clauses]; simp)
  | succ n ih =>
    intro cnf acc m cnf1 units m1 h
    rcases get_unit_clauses_succ_cases h with ⟨hf, hr, _⟩ | ⟨u, _, hcase⟩
    · simp only [Option.some.injEq, Prod.mk.injEq] at hr
      intro c hc
      have := List.find?_eq_none.mp hf c (hr.1 ▸ hc)
      simpa using this
    · rcases hcase with ⟨_, hr, _⟩ | ⟨_, hr, _⟩ | ⟨cnfmid, _, _, hrec⟩
      · exact absurd hr (by simp)
      · simp only [Option.some.injEq, Prod.mk.injEq] at hr
        rw [hr.1]
        intro c hc
        exact absurd hc (List.not_mem_nil _)
      · exact ih cnfmid (acc ++ [u]) (mstep m) hrec

theorem get_unit_clauses_vars :
    ∀ (fuel : Nat) (cnf : Formula) (acc : List Int) (m : Metrics) {cnf1 units m1},
      get_unit_clauses fuel cnf acc m = some (some (cnf1, units), m1) →
      fvars cnf1 ⊆ fvars cnf := by
  intro fuel
  induction fuel with
  | zero => intro cnf acc m cnf1 units m1 h; exact absurd h (by rw [get_unit_clauses]; simp)
  | succ n ih =>
    intro cnf acc m cnf1 units m1 h
    rcases get_unit_clauses_succ_cases h with ⟨_, hr, _⟩ | ⟨u, _, hcase⟩
    · simp only [Option.some.injEq, Prod.mk.injEq] at hr
      rw [hr.1]
    · rcases hcase with ⟨_, hr, _⟩ | ⟨_, hr, _⟩ | ⟨cnfmid, hp, _, hrec⟩
      · exact absurd hr (by simp)
      · simp only [Option.some.injEq, Prod.mk.injEq] at hr
        rw [hr.1]
        intro v hv
        simp [fvars, litsOf] at hv
      · exact (ih cnfmid (acc ++ [u]) (mstep m) hrec).trans (propagate_unit_vars_subset hp)

theorem get_unit_clauses_wf :
    ∀ (fuel : Nat) (cnf : Formula) (acc : List Int) (m : Metrics) {cnf1 units m1},
      get_unit_clauses fuel cnf acc m = some (some (cnf1, units), m1) →
      wfFormula cnf → wfFormula cnf1 := by
  intro fuel
  induction fuel with
  | zero => intro cnf acc m cnf1 units m1 h; exact absurd h (by rw [get_unit_clauses]; simp)
  | succ n ih =>
    intro cnf acc m cnf1 units m1 h hwf
    rcases get_unit_clauses_succ_cases h with ⟨_, hr, _⟩ | ⟨u, _, hcase⟩
    · simp only [Option.some.injEq, Prod.mk.injEq] at hr
      rw [hr.1]; exact hwf
    · rcases hcase with ⟨_, hr, _⟩ | ⟨_, hr, _⟩ | ⟨cnfmid, hp, _, hrec⟩
      · exact absurd hr (by simp)
      · simp only [Option.some.injEq, Prod.mk.injEq] at hr
        rw [hr.1]
        intro c hc
        exact absurd hc (List.not_mem_nil _)
      · exact ih cnfmid (acc ++ [u]) (mstep m) hrec (propagate_unit_wf hwf hp)

theorem get_unit_clauses_back :
    ∀ (fuel : Nat) (cnf : Formula) (acc : List Int) (m : Metrics) {cnf1 units m1},
      get_unit_clauses fuel cnf acc m = some (some (cnf1, units), m1) →
      ∀ c ∈ cnf, (∃ u ∈ units, u ∈ c) ∨ ∃ c2 ∈ cnf1, c2 ⊆ c := by
  intro fuel
  induction fuel with
  | zero => intro cnf acc m cnf1 units m1 h; exact absurd h (by rw [get_unit_clauses]; simp)
  | succ n ih =>
    intro cnf acc m cnf1 units m1 h c hc
    rcases get_unit_clauses_succ_cases h with ⟨_, hr, _⟩ | ⟨u, _, hcase⟩
    · simp only [Option.some.injEq, Prod.mk.injEq] at hr
      exact Or.inr ⟨c, hr.1 ▸ hc, fun x hx => hx⟩
    · rcases hcase with ⟨_, hr, _⟩ | ⟨hp, hr, _⟩ | ⟨cnfmid, hp, _, hrec⟩
      · exact absurd hr (by simp)
      · simp only [Option.some.injEq, Prod.mk.injEq] at hr
        rcases propagate_unit_back hp c hc with huc | ⟨c2, hc2, _⟩
        · exact Or.inl ⟨u, by simp [hr.2], huc⟩
        · exact absurd hc2 (List.not_mem_nil _)
      · rcases propagate_unit_back hp c hc with huc | ⟨c2, hc2, hsub⟩
        · refine Or.inl ⟨u, ?_, huc⟩
          rcases get_unit_clauses_acc n cnfmid (acc ++ [u]) (mstep m) hrec with ⟨ext, hext, _⟩
          simp [hext]
        · rcases ih cnfmid (acc ++ [u]) (mstep m) hrec c2 hc2 with ⟨u2, hu2, hu2c⟩ | ⟨c3, hc3, hsub3⟩
          · exact Or.inl ⟨u2, hu2, hsub hu2c⟩
          · exact Or.inr ⟨c3, hc3, hsub3.trans hsub⟩

theorem get_unit_clauses_sat :
    ∀ (fuel : Nat) (cnf : Formula) (acc : List Int) (m : Metrics)
      {σ : Nat → Bool} {r : Option (Formula × List Int)} {m1 : Metrics},
      get_unit_clauses fuel cnf acc m = some (r, m1) →
      (∀ l ∈ litsOf cnf, l ≠ 0) →
      evalCnf σ cnf = true →
      ∃ cnf1 units, r = some (cnf1, units) ∧ evalCnf σ cnf1 = true := by
  intro fuel
  induction fuel with
  | zero => intro cnf acc m σ r m1 h; exact absurd h (by rw [get_unit_clauses]; simp)
  | succ n ih =>
    intro cnf acc m σ r m1 h hnz hsat
    rcases get_unit_clauses_succ_cases h with ⟨_, hr, _⟩ | ⟨u, humem, hcase⟩
    · exact ⟨cnf, acc, hr, hsat⟩
    · have hu0 : u ≠ 0 := hnz u (mem_litsOf.mpr ⟨[u], humem, by simp⟩)
      have hutrue : evalLit σ u = true := by
        have := evalCnf_mem hsat humem
        simpa [evalClause] using this
      rcases hcase with ⟨hp, _, _⟩ | ⟨_, hr, _⟩ | ⟨cnfmid, hp, _, hrec⟩
      · exact absurd hp ((propagate_unit_sat hu0 hutrue hsat).1)
      · exact ⟨[], acc ++ [u], hr, by simp [evalCnf]⟩
      · exact ih cnfmid (acc ++ [u]) (mstep m) hrec
          (propagate_unit_lits_nonzero hp hnz)
          ((propagate_unit_sat hu0 hutrue hsat).2 cnfmid hp)

theorem get_unit_clauses_fresh :
    ∀ (fuel : Nat) (cnf : Formula) (acc : List Int) (m : Metrics) {cnf1 units m1},
      get_unit_clauses fuel cnf acc m = some (some (cnf1, units), m1) →
      (∀ a ∈ acc, a.natAbs ∉ fvars cnf) →
      (acc.map Int.natAbs).Nodup →
      ((units.map Int.natAbs).Nodup ∧
        (∀ u ∈ units, u.natAbs ∉ fvars cnf1) ∧
        (∀ u ∈ units, u ∈ acc ∨ u.natAbs ∈ fvars cnf)) := by
  intro fuel
  induction fuel with
  | zero => intro cnf acc m cnf1 units m1 h; exact absurd h (by rw [get_unit_clauses]; simp)
  | succ n ih =>
    intro cnf acc m cnf1 units m1 h hdisj hnd
    rcases get_unit_clauses_succ_cases h with ⟨_, hr, _⟩ | ⟨u, humem, hcase⟩
    · simp only [Option.some.injEq, Prod.mk.injEq] at hr
      rw [hr.1, hr.2]
      exact ⟨hnd, hdisj, fun a ha => Or.inl ha⟩
    · have huvar : u.natAbs ∈ fvars cnf := natAbs_mem_fvars humem (by simp)
      have hndext : ((acc ++ [u]).map Int.natAbs).Nodup := by
        rw [List.map_append]
        simp only [List.map_cons, List.map_nil]
        rw [List.nodup_append]
        refine ⟨hnd, List.nodup_singleton _, ?_⟩
        intro x hx
        simp only [List.mem_singleton]
        intro he
        rcases List.mem_map.mp hx with ⟨a, ha, rfl⟩
        exact hdisj a ha (he ▸ huvar)
      rcases hcase with ⟨_, hr, _⟩ | ⟨hp, hr, _⟩ | ⟨cnfmid, hp, hne, hrec⟩
      · exact absurd hr (by simp)
      · simp only [Option.some.injEq, Prod.mk.injEq] at hr
        rw [hr.1, hr.2]
        refine ⟨hndext, ?_, ?_⟩
        · intro a _
          simp [fvars, litsOf]
        · intro a ha
          rcases List.mem_append.mp ha with ha | ha
          · exact Or.inl ha
          · rcases List.mem_singleton.mp ha with rfl
            exact Or.inr huvar
      · have hdisjext : ∀ a ∈ acc ++ [u], a.natAbs ∉ fvars cnfmid := by
          intro a ha
          rcases List.mem_append.mp ha with ha | ha
          · intro hmem
            exact hdisj a ha (propagate_unit_vars_subset hp hmem)
          · rcases List.mem_singleton.mp ha with rfl
            intro hmem
            have := propagate_unit_vars hp hmem
            exact (Finset.mem_erase.mp this).1 rfl
        rcases ih cnfmid (acc ++ [u]) (mstep m) hrec hdisjext hndext with ⟨h1, h2, h3⟩
        refine ⟨h1, h2, ?_⟩
        intro a ha
        rcases h3 a ha with hmem | hmem
        · rcases List.mem_append.mp hmem with hmem | hmem
          · exact Or.inl hmem
          · rcases List.mem_singleton.mp hmem with rfl
            exact Or.inr huvar
        · exact Or.inr (propagate_unit_vars_subset hp hmem)

theorem get_unit_clauses_nonzero :
    ∀ (fuel : Nat) (cnf : Formula) (acc : List Int) (m : Metrics) {cnf1 units m1},
      get_unit_clauses fuel cnf acc m = some (some (cnf1, units), m1) →
      (∀ l ∈ litsOf cnf, l ≠ 0) → (∀ a ∈ acc, a ≠ 0) →
      ∀ u ∈ units, u ≠ 0 := by
  intro fuel
  induction fuel with
  | zero => intro cnf acc m cnf1 units m1 h; exact absurd h (by rw [get_unit_clauses]; simp)
  | succ n ih =>
    intro cnf acc m cnf1 units m1 h hnz hacc
    rcases get_unit_clauses_succ_cases h with ⟨_, hr, _⟩ | ⟨u, humem, hcase⟩
    · simp only [Option.some.injEq, Prod.mk.injEq] at hr
      rw [hr.2]; exact hacc
    · have hu0 : u ≠ 0 := hnz u (mem_litsOf.mpr ⟨[u], humem, by simp⟩)
      have haccext : ∀ a ∈ acc ++ [u], a ≠ 0 := by
        intro a ha
        rcases List.mem_append.mp ha with ha | ha
        · exact hacc a ha
        · rcases List.mem_singleton.mp ha with rfl; exact hu0
      rcases hcase with ⟨_, hr, _⟩ | ⟨_, hr, _⟩ | ⟨cnfmid, hp, _, hrec⟩
      · exact absurd hr (by simp)
      · simp only [Option.some.injEq, Prod.mk.injEq] at hr
        rw [hr.2]; exact haccext
      · exact ih cnfmid (acc ++ [u]) (mstep m) hrec
          (propagate_unit_lits_nonzero hp hnz) haccext

theorem mstep_db (m : Metrics) :
    (mstep m).decisions = m.decisions ∧ (mstep m).backtracks = m.backtracks := ⟨rfl, rfl⟩

theorem get_unit_clauses_db :
    ∀ (fuel : Nat) (cnf : Formula) (acc : List Int) (m : Metrics) {r m1},
      get_unit_clauses fuel cnf acc m = some (r, m1) →
      m1.decisions = m.decisions ∧ m1.backtracks = m.backtracks := by
  intro fuel
  induction fuel with
  | zero => intro cnf acc m r m1 h; exact absurd h (by rw [get_unit_clauses]; simp)
  | succ n ih =>
    intro cnf acc m r m1 h
    rcases get_unit_clauses_succ_cases h with ⟨_, _, hm⟩ | ⟨u, _, hcase⟩
    · rw [hm]; exact ⟨rfl, rfl⟩
    · rcases hcase with ⟨_, _, hm⟩ | ⟨_, _, hm⟩ | ⟨cnfmid, _, _, hrec⟩
      · rw [hm]; exact ⟨rfl, rfl⟩
      · rw [hm]; exact ⟨rfl, rfl⟩
      · exact ih cnfmid (acc ++ [u]) (mstep m) hrec

theorem madd_mstep (m0 m : Metrics) : madd m0 (mstep m) = mstep (madd m0 m) := rfl

theorem madd_mconf (m0 m : Metrics) : madd m0 (mconf m) = mconf (madd m0 m) := rfl

theorem madd_mdec (m0 m : Metrics) : madd m0 (mdec m) = mdec (madd m0 m) := rfl

theorem madd_mback (m0 m : Metrics) : madd m0 (mback m) = mback (madd m0 m) := rfl

theorem madd_init (m : Metrics) : madd m initMetrics = m := by
  cases m
  simp [madd, initMetrics]

theorem get_unit_clauses_shift :
    ∀ (fuel : Nat) (cnf : Formula) (acc : List Int) (m : Metrics) {r m1},
      get_unit_clauses fuel cnf acc m = some (r, m1) →
      ∀ m0, get_unit_clauses fuel cnf acc (madd m0 m) = some (r, madd m0 m1) := by
  intro fuel
  induction fuel with
  | zero => intro cnf acc m r m1 h; exact absurd h (by rw [get_unit_clauses]; simp)
  | succ n ih =>
    intro cnf acc m r m1 h m0
    rw [get_unit_clauses] at h
    rw [get_unit_clauses]
    split at h
    · rename_i hf
      simp only [Option.some.injEq, Prod.mk.injEq] at h
      rw [← h.1, ← h.2]
    · rename_i c hf
      split at h
      · rename_i hp
        simp only [Option.some.injEq, Prod.mk.injEq] at h
        rw [← h.1, ← h.2, madd_mstep]
      · rename_i cnf1 hp
        split at h
        · rename_i he
          rw [if_pos he]
          simp only [Option.some.injEq, Prod.mk.injEq] at h
          rw [← h.1, ← h.2, madd_mstep]
        · rename_i he
          rw [if_neg he, ← madd_mstep]
          exact ih cnf1 (acc ++ [c.headD 0]) (mstep m) h m0

/-! ### Lemmas about the heuristics and `select_literal` -/

theorem pymaxBy_foldl_mem {β : Type} [LinearOrder β] (score : Int → β) :
    ∀ (xs : List Int) (b : Int),
      xs.foldl (fun b y => if score b < score y then y else b) b ∈ b :: xs := by
  intro xs
  induction xs with
  | nil => intro b; simp
  | cons y ys ih =>
    intro b
    simp only [List.foldl_cons]
    rcases List.mem_cons.mp (ih (if score b < score y then y else b)) with h | h
    · rw [h]
      by_cases hc : score b < score y
      · simp [hc]
      · simp [hc]
    · simp [List.mem_cons_of_mem, h]

theorem pymaxBy_foldl_le {β : Type} [LinearOrder β] (score : Int → β) :
    ∀ (xs : List Int) (b : Int), ∀ z ∈ b :: xs,
      score z ≤ score (xs.foldl (fun b y => if score b < score y then y else b) b) := by
  intro xs
  induction xs with
  | nil =>
    intro b z hz
    rcases List.mem_singleton.mp hz with rfl
    simp
  | cons y ys ih =>
    intro b z hz
    simp only [List.foldl_cons]
    rcases List.mem_cons.mp hz with rfl | hz
    · have h1 : score z ≤ score (if score z < score y then y else z) := by
        by_cases hc : score z < score y
        · rw [if_pos hc]; exact le_of_lt hc
        · rw [if_neg hc]
      exact h1.trans (ih _ _ (List.mem_cons_self _ _))
    · rcases List.mem_cons.mp hz with rfl | hz
      · have h1 : score z ≤ score (if score b < score z then z else b) := by
          by_cases hc : score b < score z
          · rw [if_pos hc]
          · rw [if_neg hc]; exact le_of_not_lt hc
        exact h1.trans (ih _ _ (List.mem_cons_self _ _))
      · exact ih _ z (List.mem_cons_of_mem _ hz)

theorem pymaxBy_mem {β : Type} [LinearOrder β] {score : Int → β} {l : List Int} {x : Int}
    (h : pymaxBy score l = some x) : x ∈ l := by
  cases l with
  | nil => exact absurd h (by rw [pymaxBy]; simp)
  | cons a as =>
    simp only [pymaxBy, Option.some.injEq] at h
    rw [← h]
    exact pymaxBy_foldl_mem score as a

theorem pymaxBy_le {β : Type} [LinearOrder β] {score : Int → β} {l : List Int} {x : Int}
    (h : pymaxBy score l = some x) : ∀ z ∈ l, score z ≤ score x := by
  cases l with
  | nil => exact absurd h (by rw [pymaxBy]; simp)
  | cons a as =>
    simp only [pymaxBy, Option.some.injEq] at h
    rw [← h]
    exact fun z hz => pymaxBy_foldl_le score as a z hz

theorem pymaxBy_isSome {β : Type} [LinearOrder β] (score : Int → β) {l : List Int}
    (h : l ≠ []) : ∃ x, pymaxBy score l = some x := by
  cases l with
  | nil => exact absurd rfl h
  | cons a as => exact ⟨_, rfl⟩

theorem pyKeys_aux_mem :
    ∀ (l acc : List Int) (x : Int),
      x ∈ l.foldl (fun acc x => if x ∈ acc then acc else acc ++ [x]) acc ↔
        x ∈ acc ∨ x ∈ l := by
  intro l
  induction l with
  | nil => intro acc x; simp
  | cons a as ih =>
    intro acc x
    simp only [List.foldl_cons]
    rw [ih]
    by_cases h : a ∈ acc
    · rw [if_pos h]
      simp only [List.mem_cons]
      constructor
      · rintro (hx | hx)
        · exact Or.inl hx
        · exact Or.inr (Or.inr hx)
      · rintro (hx | rfl | hx)
        · exact Or.inl hx
        · exact Or.inl h
        · exact Or.inr hx
    · rw [if_neg h]
      simp only [List.mem_append, List.mem_singleton, List.mem_cons]
      tauto

theorem pyKeys_mem {l : List Int} {x : Int} : x ∈ pyKeys l ↔ x ∈ l := by
  rw [pyKeys, pyKeys_aux_mem]
  simp

theorem pyKeys_ne_nil {l : List Int} (h : l ≠ []) : pyKeys l ≠ [] := by
  cases l with
  | nil => exact absurd rfl h
  | cons a as =>
    intro he
    have ha : a ∈ pyKeys (a :: as) := pyKeys_mem.mpr (by simp)
    rw [he] at ha
    exact absurd ha (List.not_mem_nil _)

theorem litsOf_ne_nil {cnf : Formula} {c : Clause} (hc : c ∈ cnf) (hne : c ≠ []) :
    litsOf cnf ≠ [] := by
  cases c with
  | nil => exact absurd rfl hne
  | cons a as =>
    intro h
    have ha : a ∈ litsOf cnf := mem_litsOf.mpr ⟨_, hc, by simp⟩
    rw [h] at ha
    exact absurd ha (List.not_mem_nil _)

theorem foldl_min_attained :
    ∀ (l : List Clause) (b : Nat),
      l.foldl (fun m d => min m d.length) b = b ∨
        ∃ c ∈ l, l.foldl (fun m d => min m d.length) b = c.length := by
  intro l
  induction l with
  | nil => intro b; exact Or.inl rfl
  | cons d ds ih =>
    intro b
    simp only [List.foldl_cons]
    rcases ih (min b d.length) with h | ⟨c, hc, h⟩
    · rw [h]
      rcases le_total b d.length with hle | hle
      · exact Or.inl (min_eq_left hle)
      · exact Or.inr ⟨d, List.mem_cons_self _ _, min_eq_right hle⟩
    · exact Or.inr ⟨c, List.mem_cons_of_mem _ hc, h⟩

theorem minSize_attained {cnf : Formula} (h : cnf ≠ []) :
    ∃ c ∈ cnf, c.length = minSize cnf := by
  cases cnf with
  | nil => exact absurd rfl h
  | cons c rest =>
    rw [minSize]
    rcases foldl_min_attained rest c.length with he | ⟨c2, hc2, he⟩
    · exact ⟨c, List.mem_cons_self _ _, he.symm⟩
    · exact ⟨c2, List.mem_cons_of_mem _ hc2, he.symm⟩

theorem posOcc_mem {cnf : Formula} {v : Int} :
    v ∈ posOcc cnf ↔ v ∈ litsOf cnf ∧ 0 < v := by
  simp [posOcc, List.mem_filter]

theorem negOcc_mem {cnf : Formula} {v : Int} :
    v ∈ negOcc cnf ↔ ∃ l, l ∈ litsOf cnf ∧ ¬ 0 < l ∧ v = -l := by
  simp only [negOcc, List.mem_map, List.mem_filter, decide_eq_true_eq]
  constructor
  · rintro ⟨l, ⟨hl, hneg⟩, rfl⟩
    exact ⟨l, hl, hneg, rfl⟩
  · rintro ⟨l, hl, hneg, rfl⟩
    exact ⟨l, ⟨hl, hneg⟩, rfl⟩

theorem dlis_cases {cnf : Formula} {L : Int} (h : dlis cnf = some L) :
    ∃ v, v ∈ pyKeys (posOcc cnf) ++ pyKeys (negOcc cnf) ∧
      (∀ w ∈ pyKeys (posOcc cnf) ++ pyKeys (negOcc cnf),
        posCountD cnf w + negCountD cnf w ≤ posCountD cnf v + negCountD cnf v) ∧
      L = (if negCountD cnf v ≤ posCountD cnf v then v else -v) := by
  rw [dlis] at h
  split at h
  · exact absurd h (by simp)
  · rename_i v hv
    simp only [Option.some.injEq] at h
    exact ⟨v, pymaxBy_mem hv, pymaxBy_le hv, h.symm⟩

theorem dlis_key_var {cnf : Formula} {v : Int}
    (hv : v ∈ pyKeys (posOcc cnf) ++ pyKeys (negOcc cnf)) :
    v.natAbs ∈ fvars cnf := by
  rcases List.mem_append.mp hv with hv | hv
  · rcases posOcc_mem.mp (pyKeys_mem.mp hv) with ⟨hl, _⟩
    exact mem_fvars.mpr ⟨v, hl, rfl⟩
  · rcases negOcc_mem.mp (pyKeys_mem.mp hv) with ⟨l, hl, _, rfl⟩
    exact mem_fvars.mpr ⟨l, hl, by simp [Int.natAbs_neg]⟩

theorem dlis_key_pos {cnf : Formula} {v : Int} (hnz : ∀ l ∈ litsOf cnf, l ≠ 0)
    (hv : v ∈ pyKeys (posOcc cnf) ++ pyKeys (negOcc cnf)) : 0 < v := by
  rcases List.mem_append.mp hv with hv | hv
  · exact (posOcc_mem.mp (pyKeys_mem.mp hv)).2
  · rcases negOcc_mem.mp (pyKeys_mem.mp hv) with ⟨l, hl, hneg, rfl⟩
    have := hnz l hl
    omega

theorem select_literal_mem {s : Nat} {cnf : Formula} {L : Int}
    (h : select_literal s cnf = some L) : L.natAbs ∈ fvars cnf := by
  rw [select_literal] at h
  split_ifs at h
  · -- strategy 1
    cases cnf with
    | nil => exact absurd h (by simp)
    | cons c rest =>
      cases c with
      | nil => exact absurd h (by simp)
      | cons a as =>
        simp only [List.headD_cons, List.head?_cons, Option.some.injEq] at h
        exact natAbs_mem_fvars (List.mem_cons_self _ _) (h ▸ List.mem_cons_self _ _)
  · -- strategy 2
    have := pyKeys_mem.mp (pymaxBy_mem h)
    exact mem_fvars.mpr ⟨L, this, rfl⟩
  · -- strategy 3
    have := pyKeys_mem.mp (pymaxBy_mem h)
    rcases List.mem_map.mp this with ⟨l, hl, rfl⟩
    exact mem_fvars.mpr ⟨l, hl, by simp [Int.natAbs_abs]⟩
  · -- strategy 4
    have := pyKeys_mem.mp (pymaxBy_mem h)
    rcases mem_litsOf.mp this with ⟨c, hc, hlc⟩
    exact natAbs_mem_fvars (List.mem_of_mem_filter hc) hlc
  · -- strategy 5
    rcases dlis_cases h with ⟨v, hv, _, rfl⟩
    by_cases hc : negCountD cnf v ≤ posCountD cnf v
    · rw [if_pos hc]
      exact dlis_key_var hv
    · rw [if_neg hc]
      rw [Int.natAbs_neg]
      exact dlis_key_var hv

theorem select_literal_nonzero {s : Nat} {cnf : Formula} {L : Int}
    (hnz : ∀ l ∈ litsOf cnf, l ≠ 0)
    (h : select_literal s cnf = some L) : L ≠ 0 := by
  rw [select_literal] at h
  split_ifs at h
  · cases cnf with
    | nil => exact absurd h (by simp)
    | cons c rest =>
      cases c with
      | nil => exact absurd h (by simp)
      | cons a as =>
        simp only [List.headD_cons, List.head?_cons, Option.some.injEq] at h
        exact h ▸ hnz a (mem_litsOf.mpr ⟨_, List.mem_cons_self _ _, List.mem_cons_self _ _⟩)
  · exact hnz L (pyKeys_mem.mp (pymaxBy_mem h))
  · have := pyKeys_mem.mp (pymaxBy_mem h)
    rcases List.mem_map.mp this with ⟨l, hl, rfl⟩
    have := hnz l hl
    simp only [ne_eq, Int.natCast_eq_zero, Int.natAbs_eq_zero]
    exact this
  · have := pyKeys_mem.mp (pymaxBy_mem h)
    rcases mem_litsOf.mp this with ⟨c, hc, hlc⟩
    exact hnz L (mem_litsOf.mpr ⟨c, List.mem_of_mem_filter hc, hlc⟩)
  · rcases dlis_cases h with ⟨v, hv, _, rfl⟩
    have hpos := dlis_key_pos hnz hv
    by_cases hc : negCountD cnf v ≤ posCountD cnf v
    · rw [if_pos hc]; omega
    · rw [if_neg hc]; omega

theorem select_literal_total {s : Nat} {cnf : Formula}
    (hs : 1 ≤ s ∧ s ≤ 5) (hne : cnf ≠ []) (hcl : ∀ c ∈ cnf, c ≠ []) :
    ∃ L, select_literal s cnf = some L := by
  have hlits : litsOf cnf ≠ [] := by
    cases cnf with
    | nil => exact absurd rfl hne
    | cons c rest => exact litsOf_ne_nil (List.mem_cons_self _ _) (hcl c (List.mem_cons_self _ _))
  rcases hs with ⟨hs1, hs5⟩
  interval_cases s
  · -- strategy 1
    cases cnf with
    | nil => exact absurd rfl hne
    | cons c rest =>
      cases hc : c with
      | nil => exact absurd hc (hcl c (List.mem_cons_self _ _))
      | cons a as => exact ⟨a, by simp [select_literal, hc]⟩
  · rcases pymaxBy_isSome (jwWeight cnf) (pyKeys_ne_nil hlits) with ⟨L, hL⟩
    exact ⟨L, by simp [select_literal, jersolow, hL]⟩
  · have hmap : (litsOf cnf).map (fun l => (l.natAbs : Int)) ≠ [] := by
      simpa using hlits
    rcases pymaxBy_isSome (jwSidedWeight cnf) (pyKeys_ne_nil hmap) with ⟨L, hL⟩
    exact ⟨L, hL⟩
  · rcases minSize_attained hne with ⟨c, hc, hlen⟩
    have hcm : c ∈ momsClauses cnf := by
      rw [momsClauses]
      exact List.mem_filter.mpr ⟨hc, by simp [hlen]⟩
    have : litsOf (momsClauses cnf) ≠ [] := litsOf_ne_nil hcm (hcl c hc)
    rcases pymaxBy_isSome (momsCount cnf) (pyKeys_ne_nil this) with ⟨L, hL⟩
    exact ⟨L, by simp [select_literal, moms_heuristic, hL]⟩
  · have hkeys : pyKeys (posOcc cnf) ++ pyKeys (negOcc cnf) ≠ [] := by
      cases hl : litsOf cnf with
      | nil => exact absurd hl hlits
      | cons a as =>
        have ha : a ∈ litsOf cnf := by rw [hl]; exact List.mem_cons_self _ _
        by_cases hpos : 0 < a
        · have : a ∈ pyKeys (posOcc cnf) := pyKeys_mem.mpr (posOcc_mem.mpr ⟨ha, hpos⟩)
          intro he
          rw [List.append_eq_nil] at he
          rw [he.1] at this
          exact absurd this (List.not_mem_nil _)
        · have : -a ∈ pyKeys (negOcc cnf) :=
            pyKeys_mem.mpr (negOcc_mem.mpr ⟨a, ha, hpos, rfl⟩)
          intro he
          rw [List.append_eq_nil] at he
          rw [he.2] at this
          exact absurd this (List.not_mem_nil _)
    rcases pymaxBy_isSome (fun v => posCountD cnf v + negCountD cnf v) hkeys with ⟨v, hv⟩
    refine ⟨if negCountD cnf v ≤ posCountD cnf v then v else -v, ?_⟩
    simp [select_literal, dlis, hv]

/-! ### Lemmas about the DPLL search `solve` -/

/-- Inversion principle for one `solve` frame that returned normally. -/
theorem solve_succ_cases {s n : Nat} {cnf : Formula} {asn : List Int} {m : Metrics}
    {res : List Int} {mres : Metrics}
    (h : solve s (n + 1) cnf asn m = SolveRes.done res mres) :
    (∃ m1, get_unit_clauses ((fvars cnf).card + 1) cnf [] m = some (none, m1) ∧
      res = [] ∧ mres = mconf m1) ∨
    (∃ units m1,
      get_unit_clauses ((fvars cnf).card + 1) cnf [] m = some (some ([], units), m1) ∧
      res = asn ++ units ∧ mres = m1) ∨
    (∃ cnf1 units m1 L cnfL r1 mr1,
      get_unit_clauses ((fvars cnf).card + 1) cnf [] m = some (some (cnf1, units), m1) ∧
      cnf1 ≠ [] ∧
      select_literal s cnf1 = some L ∧
      propagate_unit cnf1 L = some cnfL ∧
      solve s n cnfL (asn ++ units ++ [L]) (mdec m1) = SolveRes.done r1 mr1 ∧
      ((r1 ≠ [] ∧ res = r1 ∧ mres = mr1) ∨
       (r1 = [] ∧ ∃ cnfN, propagate_unit cnf1 (-L) = some cnfN ∧
         solve s n cnfN (asn ++ units ++ [-L]) (mback mr1) = SolveRes.done res mres))) := by
  rw [solve] at h
  split at h
  · exact absurd h (by simp)
  · rename_i m1 hgu
    simp only [SolveRes.done.injEq] at h
    exact Or.inl ⟨m1, hgu, h.1.symm, h.2.symm⟩
  · rename_i cnf1 units m1 hgu
    split at h
    · rename_i he
      subst he
      simp only [SolveRes.done.injEq] at h
      exact Or.inr (Or.inl ⟨units, m1, hgu, h.1.symm, h.2.symm⟩)
    · rename_i he
      split at h
      · exact absurd h (by simp)
      · rename_i L hsel
        split at h
        · exact absurd h (by simp)
        · rename_i cnfL hp
          split at h
          · exact absurd h (by simp)
          · exact absurd h (by simp)
          · rename_i r1 mr1 hrec1
            refine Or.inr (Or.inr ⟨cnf1, units, m1, L, cnfL, r1, mr1, hgu, he, hsel, hp, hrec1, ?_⟩)
            split at h
            · rename_i hr1
              split at h
              · exact absurd h (by simp)
              · rename_i cnfN hpN
                exact Or.inr ⟨hr1, cnfN, hpN, h⟩
            · rename_i hr1
              simp only [SolveRes.done.injEq] at h
              exact Or.inl ⟨hr1, h.1.symm, h.2.symm⟩

/-- A solve frame at fuel `0` never returns normally. -/
theorem solve_zero {s : Nat} {cnf : Formula} {asn : List Int} {m : Metrics}
    {res : List Int} {mres : Metrics} :
    solve s 0 cnf asn m ≠ SolveRes.done res mres := by
  rw [solve]; simp

/-- Syntactic soundness: a nonempty returned sequence hits every clause of
the argument formula, and extends the passed-in assignments. -/
theorem solve_sound_aux :
    ∀ (fuel s : Nat) (cnf : Formula) (asn : List Int) (m : Metrics) {res mres},
      solve s fuel cnf asn m = SolveRes.done res mres → res ≠ [] →
      (∀ c ∈ cnf, ∃ l, l ∈ res ∧ l ∈ c) ∧ asn ⊆ res := by
  intro fuel
  induction fuel with
  | zero => intro s cnf asn m res mres h; exact absurd h solve_zero
  | succ n ih =>
    intro s cnf asn m res mres h hne
    rcases solve_succ_cases h with
      ⟨m1, hgu, hres, hmres⟩ |
      ⟨units, m1, hgu, hres, hmres⟩ |
      ⟨cnf1, units, m1, L, cnfL, r1, mr1, hgu, hne1, hsel, hp, hrec1, hbr⟩
    · exact absurd hres hne
    · subst hres
      constructor
      · intro c hc
        rcases get_unit_clauses_back _ _ _ _ hgu c hc with ⟨u, hu, huc⟩ | ⟨c2, hc2, _⟩
        · exact ⟨u, List.mem_append_right _ hu, huc⟩
        · exact absurd hc2 (List.not_mem_nil _)
      · exact fun x hx => List.mem_append_left _ hx
    · rcases hbr with ⟨hr1ne, hres, _⟩ | ⟨hr1, cnfN, hpN, hrec2⟩
      · subst hres
        rcases ih s cnfL _ _ hrec1 hr1ne with ⟨hsat1, hsub1⟩
        have hLres : L ∈ res := hsub1 (by simp)
        have hUres : ∀ u ∈ units, u ∈ res := fun u hu => hsub1 (by simp [hu])
        refine ⟨?_, fun x hx => hsub1 (by simp [hx])⟩
        intro c hc
        rcases get_unit_clauses_back _ _ _ _ hgu c hc with ⟨u, hu, huc⟩ | ⟨c2, hc2, hsub⟩
        · exact ⟨u, hUres u hu, huc⟩
        · rcases propagate_unit_back hp c2 hc2 with hL | ⟨c3, hc3, hsub3⟩
          · exact ⟨L, hLres, hsub hL⟩
          · rcases hsat1 c3 hc3 with ⟨l, hlres, hlc⟩
            exact ⟨l, hlres, hsub (hsub3 hlc)⟩
      · rcases ih s cnfN _ _ hrec2 hne with ⟨hsat2, hsub2⟩
        have hLres : -L ∈ res := hsub2 (by simp)
        have hUres : ∀ u ∈ units, u ∈ res := fun u hu => hsub2 (by simp [hu])
        refine ⟨?_, fun x hx => hsub2 (by simp [hx])⟩
        intro c hc
        rcases get_unit_clauses_back _ _ _ _ hgu c hc with ⟨u, hu, huc⟩ | ⟨c2, hc2, hsub⟩
        · exact ⟨u, hUres u hu, huc⟩
        · rcases propagate_unit_back hpN c2 hc2 with hL | ⟨c3, hc3, hsub3⟩
          · exact ⟨-L, hLres, hsub hL⟩
          · rcases hsat2 c3 hc3 with ⟨l, hlres, hlc⟩
            exact ⟨l, hlres, hsub (hsub3 hlc)⟩

/-- Returned assignments never repeat a variable, given that the incoming
assignments do not and are disjoint from the formula's variables. -/
theorem solve_nodup_aux :
    ∀ (fuel s : Nat) (cnf : Formula) (asn : List Int) (m : Metrics) {res mres},
      solve s fuel cnf asn m = SolveRes.done res mres →
      (∀ a ∈ asn, a.natAbs ∉ fvars cnf) →
      (asn.map Int.natAbs).Nodup →
      (res.map Int.natAbs).Nodup := by
  intro fuel
  induction fuel with
  | zero => intro s cnf asn m res mres h; exact absurd h solve_zero
  | succ n ih =>
    intro s cnf asn m res mres h hdisj hnd
    rcases solve_succ_cases h with
      ⟨m1, hgu, hres, hmres⟩ |
      ⟨units, m1, hgu, hres, hmres⟩ |
      ⟨cnf1, units, m1, L, cnfL, r1, mr1, hgu, hne1, hsel, hp, hrec1, hbr⟩
    · rw [hres]; exact List.nodup_nil
    · subst hres
      rcases get_unit_clauses_fresh _ _ _ _ hgu (by simp) List.nodup_nil with ⟨hund, _, huvar⟩
      rw [List.map_append, List.nodup_append]
      refine ⟨hnd, hund, ?_⟩
      intro x hx hy
      rcases List.mem_map.mp hx with ⟨a, ha, rfl⟩
      rcases List.mem_map.mp hy with ⟨u, hu, he⟩
      rcases huvar u hu with hu2 | hu2
      · exact absurd hu2 (List.not_mem_nil _)
      · refine hdisj a ha ?_
        rw [← he]
        exact hu2
    · have hwfext : ∀ x : Int, x.natAbs = L.natAbs →
          ∀ cnfB, propagate_unit cnf1 x = some cnfB →
          ((∀ a ∈ asn ++ units ++ [x], a.natAbs ∉ fvars cnfB) ∧
            ((asn ++ units ++ [x]).map Int.natAbs).Nodup) := by
        intro x hxL cnfB hpB
        rcases get_unit_clauses_fresh _ _ _ _ hgu (by simp) List.nodup_nil with
          ⟨hund, hufresh, huvar⟩
        have hLvar : L.natAbs ∈ fvars cnf1 := select_literal_mem hsel
        have hsubB := propagate_unit_vars hpB
        have hsub1 : fvars cnf1 ⊆ fvars cnf := get_unit_clauses_vars _ _ _ _ hgu
        constructor
        · intro a ha hmem
          have hmem2 := hsubB hmem
          rw [Finset.mem_erase, hxL] at hmem2
          rcases List.mem_append.mp ha with ha | ha
          · rcases List.mem_append.mp ha with ha | ha
            · exact hdisj a ha (hsub1 hmem2.2)
            · exact hufresh a ha hmem2.2
          · rcases List.mem_singleton.mp ha with rfl
            exact hmem2.1 hxL
        · rw [List.map_append, List.map_append, List.nodup_append, List.nodup_append]
          refine ⟨⟨hnd, hund, ?_⟩, by simp, ?_⟩
          · intro a ha hu
            rcases List.mem_map.mp ha with ⟨a0, ha0, rfl⟩
            rcases List.mem_map.mp hu with ⟨u0, hu0, he⟩
            rcases huvar u0 hu0 with h0 | h0
            · exact absurd h0 (List.not_mem_nil _)
            · refine hdisj a0 ha0 ?_
              rw [← he]
              exact h0
          · intro a ha hy
            rw [← List.map_append] at ha
            rcases List.mem_map.mp ha with ⟨a0, ha0, rfl⟩
            have he : a0.natAbs = L.natAbs := by
              have := List.mem_singleton.mp (by simpa using hy)
              rw [this, hxL]
            have hmem3 : a0.natAbs ∈ fvars cnf1 := by rw [he]; exact hLvar
            rcases List.mem_append.mp ha0 with h0 | h0
            · exact hdisj a0 h0 (hsub1 hmem3)
            · exact hufresh a0 h0 hmem3
      rcases hbr with ⟨_, hres, _⟩ | ⟨_, cnfN, hpN, hrec2⟩
      · subst hres
        rcases hwfext L rfl cnfL hp with ⟨hd2, hn2⟩
        exact ih s cnfL _ _ hrec1 hd2 hn2
      · rcases hwfext (-L) (Int.natAbs_neg L) cnfN hpN with ⟨hd2, hn2⟩
        exact ih s cnfN _ _ hrec2 hd2 hn2

/-- After the cascade no unit clause remains, so on a well-formed formula
`propagate_unit` cannot signal a conflict for the branching literal: a
conflicting clause would be `[-x]`, a unit clause. -/
theorem propagate_unit_no_conflict {cnf1 : Formula} {x : Int}
    (hwf : wfFormula cnf1) (hnu : ∀ c ∈ cnf1, c.length ≠ 1) :
    propagate_unit cnf1 x ≠ none := by
  intro h
  rcases propagate_unit_none_iff.mp h with ⟨c, hc, _, hneg, hfil⟩
  have hall : ∀ l ∈ c, l = -x := by
    intro l hl
    by_contra hne
    have hmem : l ∈ c.filter (fun l => decide (l ≠ -x)) :=
      List.mem_filter.mpr ⟨hl, by simpa using hne⟩
    rw [hfil] at hmem
    exact absurd hmem (List.not_mem_nil _)
  rcases hwf c hc with ⟨hne, hnd, _⟩
  cases c with
  | nil => exact hne rfl
  | cons a as =>
    cases as with
    | nil => exact hnu _ hc rfl
    | cons b bs =>
      have ha := hall a (List.mem_cons_self _ _)
      have hb := hall b (List.mem_cons_of_mem _ (List.mem_cons_self _ _))
      rw [List.nodup_cons] at hnd
      exact hnd.1 (by rw [ha, hb]; exact List.mem_cons_self _ _)

/-- Totality of the search: with fuel exceeding the number of distinct
variables, `solve` returns normally on any well-formed formula. -/
theorem solve_total :
    ∀ (fuel s : Nat) (cnf : Formula) (asn : List Int) (m : Metrics),
      1 ≤ s ∧ s ≤ 5 → wfFormula cnf → (fvars cnf).card < fuel →
      ∃ res mres, solve s fuel cnf asn m = SolveRes.done res mres := by
  intro fuel
  induction fuel with
  | zero => intro s cnf asn m _ _ hcard; exact absurd hcard (Nat.not_lt_zero _)
  | succ n ih =>
    intro s cnf asn m hs hwf hcard
    cases hgu : get_unit_clauses ((fvars cnf).card + 1) cnf [] m with
    | none => exact absurd hgu (get_unit_clauses_total _ _ _ _ (by omega))
    | some pr =>
      rcases pr with ⟨r, m1⟩
      cases r with
      | none =>
        refine ⟨[], mconf m1, ?_⟩
        rw [solve]
        simp only [hgu]
      | some pr2 =>
        rcases pr2 with ⟨cnf1, units⟩
        by_cases he : cnf1 = []
        · subst he
          refine ⟨asn ++ units, m1, ?_⟩
          rw [solve]
          simp only [hgu]
          simp
        · have hwf1 : wfFormula cnf1 := get_unit_clauses_wf _ _ _ _ hgu hwf
          have hnu : ∀ c ∈ cnf1, c.length ≠ 1 := get_unit_clauses_no_units _ _ _ _ hgu
          have hcl : ∀ c ∈ cnf1, c ≠ [] := fun c hc => (hwf1 c hc).1
          rcases select_literal_total hs he hcl with ⟨L, hsel⟩
          have hLvar : L.natAbs ∈ fvars cnf1 := select_literal_mem hsel
          have hcard1 : (fvars cnf1).card ≤ (fvars cnf).card :=
            Finset.card_le_card (get_unit_clauses_vars _ _ _ _ hgu)
          cases hp : propagate_unit cnf1 L with
          | none => exact absurd hp (propagate_unit_no_conflict hwf1 hnu)
          | some cnfL =>
            have hcardL : (fvars cnfL).card < n := by
              have h1 : (fvars cnfL).card < (fvars cnf1).card :=
                lt_of_le_of_lt (Finset.card_le_card (propagate_unit_vars hp))
                  (Finset.card_erase_lt_of_mem hLvar)
              omega
            have hwfL : wfFormula cnfL := propagate_unit_wf hwf1 hp
            rcases ih s cnfL (asn ++ units ++ [L]) (mdec m1) hs hwfL hcardL with
              ⟨r1, mr1, hrec1⟩
            by_cases hr1 : r1 = []
            · cases hpN : propagate_unit cnf1 (-L) with
              | none => exact absurd hpN (propagate_unit_no_conflict hwf1 hnu)
              | some cnfN =>
                have hcardN : (fvars cnfN).card < n := by
                  have h1 : (fvars cnfN).card < (fvars cnf1).card := by
                    refine lt_of_le_of_lt
                      (Finset.card_le_card (propagate_unit_vars hpN)) ?_
                    rw [Int.natAbs_neg]
                    exact Finset.card_erase_lt_of_mem hLvar
                  omega
                have hwfN : wfFormula cnfN := propagate_unit_wf hwf1 hpN
                rcases ih s cnfN (asn ++ units ++ [-L]) (mback mr1) hs hwfN hcardN with
                  ⟨r2, mr2, hrec2⟩
                refine ⟨r2, mr2, ?_⟩
                rw [solve]
                simp only [hgu]
                rw [if_neg he]
                simp only [hsel, hp, hrec1]
                rw [if_pos hr1]
                simp only [hpN]
                exact hrec2
            · refine ⟨r1, mr1, ?_⟩
              rw [solve]
              simp only [hgu]
              rw [if_neg he]
              simp only [hsel, hp, hrec1]
              rw [if_neg hr1]

/-- Completeness: an empty result on a well-formed formula means the
formula is unsatisfiable (the invariant `asn = [] → cnf ≠ []` holds for
the top-level call and all recursive calls). -/
theorem solve_complete_aux :
    ∀ (fuel s : Nat) (cnf : Formula) (asn : List Int) (m : Metrics) {mres},
      solve s fuel cnf asn m = SolveRes.done [] mres →
      wfFormula cnf → (asn = [] → cnf ≠ []) →
      ¬ satisfiable cnf := by
  intro fuel
  induction fuel with
  | zero => intro s cnf asn m mres h; exact absurd h solve_zero
  | succ n ih =>
    intro s cnf asn m mres h hwf hane
    rintro ⟨σ, hσ⟩
    rcases solve_succ_cases h with
      ⟨m1, hgu, _, _⟩ |
      ⟨units, m1, hgu, hres, _⟩ |
      ⟨cnf1, units, m1, L, cnfL, r1, mr1, hgu, hne1, hsel, hp, hrec1, hbr⟩
    · rcases get_unit_clauses_sat _ _ _ _ hgu (wf_lits_nonzero hwf) hσ with
        ⟨cnf1x, unitsx, heq, _⟩
      exact absurd heq (by simp)
    · rcases List.append_eq_nil.mp hres.symm with ⟨ha, hu⟩
      have hne := hane ha
      rcases get_unit_clauses_acc _ _ _ _ hgu with ⟨ext, hext, himp⟩
      have hext0 : ext = [] := by
        rw [hu] at hext
        exact hext.symm.trans (by simp)
      exact hne ((himp hext0).symm)
    · rcases hbr with ⟨hr1ne, hres, _⟩ | ⟨hr1, cnfN, hpN, hrec2⟩
      · exact hr1ne hres.symm
      · subst hr1
        have hwf1 : wfFormula cnf1 := get_unit_clauses_wf _ _ _ _ hgu hwf
        have hnz1 : ∀ l ∈ litsOf cnf1, l ≠ 0 := wf_lits_nonzero hwf1
        have hL0 : L ≠ 0 := select_literal_nonzero hnz1 hsel
        rcases get_unit_clauses_sat _ _ _ _ hgu (wf_lits_nonzero hwf) hσ with
          ⟨cnf1x, unitsx, heq, hσ1⟩
        have hσcnf1 : evalCnf σ cnf1 = true := by
          simp only [Option.some.injEq, Prod.mk.injEq] at heq
          rw [← heq.1] at hσ1
          exact hσ1
        by_cases hLt : evalLit σ L = true
        · have hsatL := (propagate_unit_sat hL0 hLt hσcnf1).2 cnfL hp
          refine ih s cnfL _ _ hrec1 (propagate_unit_wf hwf1 hp) ?_ ⟨σ, hsatL⟩
          intro hfalse
          simp at hfalse
        · have hLf : evalLit σ L = false := by
            revert hLt
            cases evalLit σ L <;> simp
          have hL0n : -L ≠ 0 := by omega
          have hLtn : evalLit σ (-L) = true := by
            rw [evalLit_neg hL0, hLf]
            rfl
          have hsatN := (propagate_unit_sat hL0n hLtn hσcnf1).2 cnfN hpN
          refine ih s cnfN _ _ hrec2 (propagate_unit_wf hwf1 hpN) ?_ ⟨σ, hsatN⟩
          intro hfalse
          simp at hfalse

/-- All literals of a returned assignment are nonzero, for well-formed
input and nonzero incoming assignments. -/
theorem solve_res_nonzero :
    ∀ (fuel s : Nat) (cnf : Formula) (asn : List Int) (m : Metrics) {res mres},
      solve s fuel cnf asn m = SolveRes.done res mres →
      wfFormula cnf → (∀ a ∈ asn, a ≠ 0) →
      ∀ l ∈ res, l ≠ 0 := by
  intro fuel
  induction fuel with
  | zero => intro s cnf asn m res mres h; exact absurd h solve_zero
  | succ n ih =>
    intro s cnf asn m res mres h hwf hasn
    rcases solve_succ_cases h with
      ⟨m1, hgu, hres, _⟩ |
      ⟨units, m1, hgu, hres, _⟩ |
      ⟨cnf1, units, m1, L, cnfL, r1, mr1, hgu, hne1, hsel, hp, hrec1, hbr⟩
    · rw [hres]
      intro l hl
      exact absurd hl (List.not_mem_nil _)
    · subst hres
      have hunz : ∀ u ∈ units, u ≠ 0 :=
        get_unit_clauses_nonzero _ _ _ _ hgu (wf_lits_nonzero hwf)
          (fun a ha => absurd ha (List.not_mem_nil _))
      intro l hl
      rcases List.mem_append.mp hl with hl | hl
      · exact hasn l hl
      · exact hunz l hl
    · have hwf1 : wfFormula cnf1 := get_unit_clauses_wf _ _ _ _ hgu hwf
      have hunz : ∀ u ∈ units, u ≠ 0 :=
        get_unit_clauses_nonzero _ _ _ _ hgu (wf_lits_nonzero hwf)
          (fun a ha => absurd ha (List.not_mem_nil _))
      have hL0 : L ≠ 0 := select_literal_nonzero (wf_lits_nonzero hwf1) hsel
      have hasnext : ∀ (x : Int), x ≠ 0 → ∀ a ∈ asn ++ units ++ [x], a ≠ 0 := by
        intro x hx a ha
        rcases List.mem_append.mp ha with ha | ha
        · rcases List.mem_append.mp ha with ha | ha
          · exact hasn a ha
          · exact hunz a ha
        · rcases List.mem_singleton.mp ha with rfl
          exact hx
      rcases hbr with ⟨_, hres, _⟩ | ⟨_, cnfN, hpN, hrec2⟩
      · subst hres
        exact ih s cnfL _ _ hrec1 (propagate_unit_wf hwf1 hp) (hasnext L hL0)
      · exact ih s cnfN _ _ hrec2 (propagate_unit_wf hwf1 hpN)
          (hasnext (-L) (by omega))

/-- Backtracks never exceed decisions, relative to the incoming metrics. -/
theorem solve_db :
    ∀ (fuel s : Nat) (cnf : Formula) (asn : List Int) (m : Metrics) {res mres},
      solve s fuel cnf asn m = SolveRes.done res mres →
      mres.backtracks + m.decisions ≤ mres.decisions + m.backtracks := by
  intro fuel
  induction fuel with
  | zero => intro s cnf asn m res mres h; exact absurd h solve_zero
  | succ n ih =>
    intro s cnf asn m res mres h
    rcases solve_succ_cases h with
      ⟨m1, hgu, _, hmres⟩ |
      ⟨units, m1, hgu, _, hmres⟩ |
      ⟨cnf1, units, m1, L, cnfL, r1, mr1, hgu, _, _, _, hrec1, hbr⟩
    · rcases get_unit_clauses_db _ _ _ _ hgu with ⟨hd, hb⟩
      have e1 : (mconf m1).decisions = m1.decisions := rfl
      have e2 : (mconf m1).backtracks = m1.backtracks := rfl
      rw [hmres]
      omega
    · rcases get_unit_clauses_db _ _ _ _ hgu with ⟨hd, hb⟩
      rw [hmres]
      omega
    · rcases get_unit_clauses_db _ _ _ _ hgu with ⟨hd, hb⟩
      have h1 := ih s cnfL _ _ hrec1
      have e1 : (mdec m1).decisions = m1.decisions + 1 := rfl
      have e2 : (mdec m1).backtracks = m1.backtracks := rfl
      rcases hbr with ⟨_, _, hmres⟩ | ⟨_, cnfN, _, hrec2⟩
      · rw [hmres]
        omega
      · have h2 := ih s cnfN _ _ hrec2
        have e3 : (mback mr1).decisions = mr1.decisions := rfl
        have e4 : (mback mr1).backtracks = mr1.backtracks + 1 := rfl
        omega

/-- Observational effect of the incoming assignments and metrics: metrics
are a pure offset, and result emptiness is preserved when the emptiness
of the incoming assignment lists agrees. -/
theorem solve_shift :
    ∀ (fuel s : Nat) (cnf : Formula) (asn : List Int) (m : Metrics) {res mres},
      solve s fuel cnf asn m = SolveRes.done res mres →
      ∀ (asn2 : List Int) (m0 : Metrics), ∃ res2,
        solve s fuel cnf asn2 (madd m0 m) = SolveRes.done res2 (madd m0 mres) ∧
        ((asn = [] ↔ asn2 = []) → (res = [] ↔ res2 = [])) := by
  intro fuel
  induction fuel with
  | zero => intro s cnf asn m res mres h; exact absurd h solve_zero
  | succ n ih =>
    intro s cnf asn m res mres h asn2 m0
    rcases solve_succ_cases h with
      ⟨m1, hgu, hres, hmres⟩ |
      ⟨units, m1, hgu, hres, hmres⟩ |
      ⟨cnf1, units, m1, L, cnfL, r1, mr1, hgu, hne1, hsel, hp, hrec1, hbr⟩
    · refine ⟨[], ?_, ?_⟩
      · rw [solve]
        simp only [get_unit_clauses_shift _ _ _ _ hgu m0]
        rw [hmres, madd_mconf]
      · intro _
        simp [hres]
    · refine ⟨asn2 ++ units, ?_, ?_⟩
      · rw [solve]
        simp only [get_unit_clauses_shift _ _ _ _ hgu m0]
        rw [hmres]
        simp
      · intro hiff
        rw [hres]
        simp only [List.append_eq_nil]
        constructor
        · rintro ⟨ha, hu⟩
          exact ⟨hiff.mp ha, hu⟩
        · rintro ⟨ha, hu⟩
          exact ⟨hiff.mpr ha, hu⟩
    · rcases ih s cnfL _ _ hrec1 (asn2 ++ units ++ [L]) m0 with ⟨r1s, hrec1s, hiff1⟩
      have hiff1e : r1 = [] ↔ r1s = [] := hiff1 (by simp)
      rcases hbr with ⟨hr1ne, hres, hmres⟩ | ⟨hr1, cnfN, hpN, hrec2⟩
      · have hr1s : r1s ≠ [] := fun hh => hr1ne (hiff1e.mpr hh)
        refine ⟨r1s, ?_, ?_⟩
        · rw [solve]
          simp only [get_unit_clauses_shift _ _ _ _ hgu m0]
          rw [if_neg hne1]
          simp only [hsel, hp]
          rw [← madd_mdec]
          simp only [hrec1s]
          rw [if_neg hr1s, hmres]
        · intro _
          rw [hres]
          exact hiff1e
      · have hr1s : r1s = [] := hiff1e.mp hr1
        rcases ih s cnfN _ _ hrec2 (asn2 ++ units ++ [-L]) m0 with ⟨r2s, hrec2s, hiff2⟩
        refine ⟨r2s, ?_, ?_⟩
        · rw [solve]
          simp only [get_unit_clauses_shift _ _ _ _ hgu m0]
          rw [if_neg hne1]
          simp only [hsel, hp]
          rw [← madd_mdec]
          simp only [hrec1s]
          rw [if_pos hr1s]
          simp only [hpN]
          rw [← madd_mback]
          exact hrec2s
        · intro _
          exact hiff2 (by simp)

/-- A consistent nonzero literal sequence hitting every clause yields a
satisfying assignment: set a variable true iff its positive literal is in
the sequence. -/
theorem sat_of_hits {cnf : Formula} {res : List Int}
    (hhit : ∀ c ∈ cnf, ∃ l, l ∈ res ∧ l ∈ c)
    (hnd : (res.map Int.natAbs).Nodup)
    (hnz : ∀ l ∈ res, l ≠ 0) :
    satisfiable cnf := by
  refine ⟨fun v => decide ((v : Int) ∈ res), ?_⟩
  apply List.all_eq_true.mpr
  intro c hc
  rcases hhit c hc with ⟨l, hlres, hlc⟩
  apply List.any_eq_true.mpr
  refine ⟨l, hlc, ?_⟩
  rw [evalLit]
  by_cases hpos : 0 < l
  · rw [if_pos hpos]
    have hcast : ((l.natAbs : Int)) = l := by omega
    rw [hcast]
    simpa using hlres
  · rw [if_neg hpos]
    have hl0 := hnz l hlres
    have hcast : ((l.natAbs : Int)) = -l := by omega
    have hnot : -l ∉ res := by
      intro hmem
      have hinj := List.inj_on_of_nodup_map hnd
      have : l = -l := hinj hlres hmem (by rw [Int.natAbs_neg])
      omega
    rw [hcast]
    simpa using hnot

/-- The candidate list of `dlis` is nonempty whenever the formula has a
literal. -/
theorem dlis_keys_ne_nil {cnf : Formula} (hlits : litsOf cnf ≠ []) :
    pyKeys (posOcc cnf) ++ pyKeys (negOcc cnf) ≠ [] := by
  cases hl : litsOf cnf with
  | nil => exact absurd hl hlits
  | cons a as =>
    have ha : a ∈ litsOf cnf := by rw [hl]; exact List.mem_cons_self _ _
    by_cases hpos : 0 < a
    · have hmem : a ∈ pyKeys (posOcc cnf) := pyKeys_mem.mpr (posOcc_mem.mpr ⟨ha, hpos⟩)
      intro he
      rw [List.append_eq_nil] at he
      rw [he.1] at hmem
      exact absurd hmem (List.not_mem_nil _)
    · have hmem : -a ∈ pyKeys (negOcc cnf) :=
        pyKeys_mem.mpr (negOcc_mem.mpr ⟨a, ha, hpos, rfl⟩)
      intro he
      rw [List.append_eq_nil] at he
      rw [he.2] at hmem
      exact absurd hmem (List.not_mem_nil _)

/-- Every variable of the formula occurs in the `dlis` candidate list. -/
theorem dlis_var_candidate {cnf : Formula} {w : Nat} (_hnz : ∀ l ∈ litsOf cnf, l ≠ 0)
    (hw : w ∈ fvars cnf) :
    ((w : Int)) ∈ pyKeys (posOcc cnf) ++ pyKeys (negOcc cnf) := by
  rcases mem_fvars.mp hw with ⟨l, hl, rfl⟩
  by_cases hpos : 0 < l
  · apply List.mem_append_left
    apply pyKeys_mem.mpr
    apply posOcc_mem.mpr
    have hcast : ((l.natAbs : Int)) = l := by omega
    rw [hcast]
    exact ⟨hl, hpos⟩
  · apply List.mem_append_right
    apply pyKeys_mem.mpr
    apply negOcc_mem.mpr
    exact ⟨l, hl, hpos, by omega⟩

/-! ### The specification claims -/

/-- C1: soundness of `solve` — whenever a top-level call (empty incoming
assignments) returns a nonempty literal sequence, every clause of the
original input formula contains at least one literal of that sequence. -/
theorem claim_C1_solve_soundness {s fuel : Nat} {cnf : Formula} {m : Metrics}
    {res : List Int} {mres : Metrics}
    (h : solve s fuel cnf [] m = SolveRes.done res mres) (hne : res ≠ []) :
    ∀ c ∈ cnf, ∃ l, l ∈ res ∧ l ∈ c :=
  (solve_sound_aux fuel s cnf [] m h hne).1

/-- C1 witness: the concrete run on `[[1], [-1, 2]]` returns `[1, 2]`,
which hits both clauses. -/
theorem claim_C1_witness :
    (∃ l, l ∈ ([1, 2] : List Int) ∧ l ∈ ([1] : Clause)) ∧
    (∃ l, l ∈ ([1, 2] : List Int) ∧ l ∈ ([-1, 2] : Clause)) :=
  ⟨@claim_C1_solve_soundness 1 2 [[1], [-1, 2]] initMetrics [1, 2] ⟨0, 0, 0, 2, 2⟩
      (by decide) (by decide) [1] (by decide),
   @claim_C1_solve_soundness 1 2 [[1], [-1, 2]] initMetrics [1, 2] ⟨0, 0, 0, 2, 2⟩
      (by decide) (by decide) [-1, 2] (by decide)⟩

/-- C2 counterexample: on the formula `[[]]` consisting of one empty
clause, the Python code reaches `select_literal` (the cascade does not
detect the empty clause) and `cnf[0][0]` raises IndexError, so `solve`
raises an exception instead of returning a result, already at the
canonical sufficient fuel — refuting the claim for arbitrary formulas. -/
theorem claim_C2_counterexample :
    solve 1 ((fvars [([] : Clause)]).card + 1) [([] : Clause)] [] initMetrics =
      SolveRes.exn := by decide

/-- C2 amended: for formulas whose clauses are nonempty lists of distinct
nonzero literals and a valid strategy, (i) `solve` with fuel
`(fvars cnf).card + 1` terminates with a normal result; (ii) each
recursive call of `solve` is on a formula whose variable set is strictly
smaller (both the positive and the negative branch); (iii) the unit-clause
cascade always reaches a fixpoint, conflict, or empty formula within
`(fvars cnf).card + 1` iterations, on arbitrary formulas. -/
theorem claim_C2_termination :
    (∀ (s : Nat) (cnf : Formula) (asn : List Int) (m : Metrics),
      1 ≤ s ∧ s ≤ 5 → wfFormula cnf →
      ∃ res mres, solve s ((fvars cnf).card + 1) cnf asn m = SolveRes.done res mres) ∧
    (∀ (s : Nat) (cnf : Formula) (L x : Int) (r : Formula),
      select_literal s cnf = some L → (x = L ∨ x = -L) →
      propagate_unit cnf x = some r → fvars r ⊂ fvars cnf) ∧
    (∀ (fuel : Nat) (cnf : Formula) (acc : List Int) (m : Metrics),
      (fvars cnf).card < fuel → get_unit_clauses fuel cnf acc m ≠ none) := by
  refine ⟨?_, ?_, ?_⟩
  · intro s cnf asn m hs hwf
    exact solve_total _ s cnf asn m hs hwf (Nat.lt_succ_self _)
  · intro s cnf L x r hsel hx hp
    have hvar : x.natAbs ∈ fvars cnf := by
      rcases hx with rfl | rfl
      · exact select_literal_mem hsel
      · rw [Int.natAbs_neg]
        exact select_literal_mem hsel
    rw [Finset.ssubset_iff_of_subset (propagate_unit_vars_subset hp)]
    refine ⟨x.natAbs, hvar, ?_⟩
    intro hmem
    exact (Finset.mem_erase.mp (propagate_unit_vars hp hmem)).1 rfl
  · intro fuel cnf acc m hcard
    exact get_unit_clauses_total fuel cnf acc m hcard

/-- C2 witness: concrete instances of the three amended conjuncts. -/
theorem claim_C2_witness :
    (∃ res mres, solve 1 ((fvars [[1], [-1, 2]]).card + 1) [[1], [-1, 2]] [] initMetrics =
      SolveRes.done res mres) ∧
    fvars [[3]] ⊂ fvars [[1, 2], [-1, 3]] ∧
    get_unit_clauses 3 [[1], [-1, 2]] [] initMetrics ≠ none :=
  ⟨claim_C2_termination.1 1 [[1], [-1, 2]] [] initMetrics (by decide) (by decide),
   claim_C2_termination.2.1 1 [[1, 2], [-1, 3]] 1 1 [[3]] (by decide) (Or.inl rfl) (by decide),
   claim_C2_termination.2.2 3 [[1], [-1, 2]] [] initMetrics (by decide)⟩

/-- C3: BCP correctness for a nonzero literal `u`: `propagate_unit`
returns the conflict marker exactly when some clause consists of nothing
but occurrences of `-u`; otherwise the result keeps exactly the clauses
not containing `u`, each with every occurrence of `-u` removed — hence
clauses containing `u` are dropped, clauses containing `-u` are shrunk,
and clauses containing neither are unchanged (the filter is the
identity there). -/
theorem claim_C3_bcp_correctness {cnf : Formula} {u : Int} (hu : u ≠ 0) :
    (propagate_unit cnf u = none ↔ ∃ c ∈ cnf, c ≠ [] ∧ ∀ l ∈ c, l = -u) ∧
    (∀ r, propagate_unit cnf u = some r →
      r = (cnf.filter (fun c => decide (u ∉ c))).map
          (fun c => c.filter (fun l => decide (l ≠ -u)))) := by
  constructor
  · rw [propagate_unit_none_iff]
    constructor
    · rintro ⟨c, hc, hnot, hneg, hfil⟩
      refine ⟨c, hc, ?_, ?_⟩
      · intro he
        rw [he] at hneg
        exact absurd hneg (List.not_mem_nil _)
      · intro l hl
        by_contra hne
        have hmem : l ∈ c.filter (fun l => decide (l ≠ -u)) :=
          List.mem_filter.mpr ⟨hl, by simpa using hne⟩
        rw [hfil] at hmem
        exact absurd hmem (List.not_mem_nil _)
    · rintro ⟨c, hc, hne, hall⟩
      refine ⟨c, hc, ?_, ?_, ?_⟩
      · intro humem
        have := hall u humem
        omega
      · cases c with
        | nil => exact absurd rfl hne
        | cons a as =>
          have ha := hall a (List.mem_cons_self _ _)
          rw [← ha]
          exact List.mem_cons_self _ _
      · apply List.filter_eq_nil_iff.mpr
        intro l hl
        simpa using hall l hl
  · exact fun r hr => propagate_unit_some_eq hr

/-- C3 witness: concrete instance at `u = 1`. -/
theorem claim_C3_witness :
    (propagate_unit [[1, 2], [-1, 3], [3]] 1 = none ↔
      ∃ c ∈ ([[1, 2], [-1, 3], [3]] : Formula), c ≠ [] ∧ ∀ l ∈ c, l = -1) ∧
    (∀ r, propagate_unit [[1, 2], [-1, 3], [3]] 1 = some r →
      r = (([[1, 2], [-1, 3], [3]] : Formula).filter (fun c => decide ((1 : Int) ∉ c))).map
          (fun c => c.filter (fun l => decide (l ≠ -(1 : Int))))) :=
  @claim_C3_bcp_correctness [[1, 2], [-1, 3], [3]] 1 (by decide)

/-- C4 counterexample: the empty formula is satisfiable (every assignment
satisfies it) yet `solve` returns the empty sequence for it, which by the
output convention denotes UNSAT — so an empty result does not imply
unsatisfiability on all inputs. -/
theorem claim_C4_counterexample :
    solve 1 1 [] [] initMetrics = SolveRes.done [] initMetrics ∧ satisfiable [] :=
  ⟨by decide, ⟨fun _ => true, rfl⟩⟩

/-- C4 amended: for nonempty well-formed formulas, a top-level `solve`
run returns the empty sequence exactly when the formula is unsatisfiable
(and a nonempty satisfying sequence otherwise); on the empty formula
`solve` returns immediately with the empty assignment and totally
unchanged metrics — in particular zero decisions — although that empty
sequence coincides with the UNSAT marker. -/
theorem claim_C4_empty_iff_unsat :
    (∀ (s : Nat) (cnf : Formula) (res : List Int) (mres : Metrics),
      wfFormula cnf → cnf ≠ [] →
      solve s ((fvars cnf).card + 1) cnf [] initMetrics = SolveRes.done res mres →
      (res = [] ↔ ¬ satisfiable cnf)) ∧
    (∀ (s fuel : Nat) (m : Metrics), 0 < fuel →
      solve s fuel [] [] m = SolveRes.done [] m) := by
  constructor
  · intro s cnf res mres hwf hne hrun
    constructor
    · intro hres
      subst hres
      exact solve_complete_aux _ s cnf [] initMetrics hrun hwf (fun _ => hne)
    · intro hunsat
      by_contra hres
      rcases solve_sound_aux _ s cnf [] initMetrics hrun hres with ⟨hhit, _⟩
      have hnd := solve_nodup_aux _ s cnf [] initMetrics hrun (by simp) List.nodup_nil
      have hnz := solve_res_nonzero _ s cnf [] initMetrics hrun hwf (by simp)
      exact hunsat (sat_of_hits hhit hnd hnz)
  · intro s fuel m hf
    cases fuel with
    | zero => exact absurd hf (Nat.lt_irrefl 0)
    | succ k => rfl

/-- C4 witness: the satisfiable formula `[[1]]` returns the nonempty
sequence `[1]`, and the run on the empty formula. -/
theorem claim_C4_witness :
    (([1] : List Int) = [] ↔ ¬ satisfiable [[1]]) ∧
    solve 1 1 [] [] initMetrics = SolveRes.done [] initMetrics :=
  ⟨claim_C4_empty_iff_unsat.1 1 [[1]] [1] ⟨0, 0, 0, 1, 1⟩ (by decide) (by decide) (by decide),
   claim_C4_empty_iff_unsat.2 1 1 initMetrics (by decide)⟩

/-- C5 counterexample: metrics are never reset inside `solve` — they are
zeroed only in `__init__`.  After a first `solve([[1]])` the instance
metrics are `⟨0,0,0,1,1⟩`; a second `solve([[1]])` on the same instance
(whose default-argument list now holds `[1]`) reports `⟨0,0,0,2,2⟩`,
whereas a freshly constructed solver reports `⟨0,0,0,1,1⟩` again. -/
theorem claim_C5_counterexample :
    solve 1 2 [[1]] [] initMetrics = SolveRes.done [1] ⟨0, 0, 0, 1, 1⟩ ∧
    solve 1 2 [[1]] (defaultAfter [[1]] []) ⟨0, 0, 0, 1, 1⟩ =
      SolveRes.done [1, 1] ⟨0, 0, 0, 2, 2⟩ ∧
    (⟨0, 0, 0, 2, 2⟩ : Metrics) ≠ ⟨0, 0, 0, 1, 1⟩ :=
  ⟨by decide, by decide, by decide⟩

/-- C5 amended: the metrics of a second top-level call are the
componentwise sum of the metrics carried over from the first call and the
record a freshly constructed solver would report for the same formula —
counters accumulate across calls instead of being reset. -/
theorem claim_C5_metrics_accumulate {s f2 : Nat} {F2 : Formula} {r2 : List Int}
    {m2 mprev : Metrics} {asn2 : List Int}
    (hfresh : solve s f2 F2 [] initMetrics = SolveRes.done r2 m2) :
    ∃ r2b, solve s f2 F2 asn2 mprev = SolveRes.done r2b (madd mprev m2) := by
  rcases solve_shift f2 s F2 [] initMetrics hfresh asn2 mprev with ⟨r2b, heq, _⟩
  rw [madd_init] at heq
  exact ⟨r2b, heq⟩

/-- C5 witness: second call on `[[1]]` starting from the first call's
metrics reports the sum `⟨0,0,0,2,2⟩`. -/
theorem claim_C5_witness :
    ∃ r2b, solve 1 2 [[1]] [1] ⟨0, 0, 0, 1, 1⟩ =
      SolveRes.done r2b (madd ⟨0, 0, 0, 1, 1⟩ ⟨0, 0, 0, 1, 1⟩) :=
  @claim_C5_metrics_accumulate 1 2 [[1]] [1] ⟨0, 0, 0, 1, 1⟩ ⟨0, 0, 0, 1, 1⟩ [1] (by decide)

/-- C6 counterexample: on `[[1,2],[1,2],[-1,2],[-1]]` variable 1 has
counts (2 positive, 2 negative) and variable 2 has (3, 0); the largest
single-polarity count belongs to variable 2, yet `dlis` returns literal 1
because it maximizes the combined count pos+neg (4 versus 3). -/
theorem claim_C6_counterexample :
    dlis [[1, 2], [1, 2], [-1, 2], [-1]] = some 1 ∧
    max (posCountD [[1, 2], [1, 2], [-1, 2], [-1]] 1)
        (negCountD [[1, 2], [1, 2], [-1, 2], [-1]] 1) <
      max (posCountD [[1, 2], [1, 2], [-1, 2], [-1]] 2)
        (negCountD [[1, 2], [1, 2], [-1, 2], [-1]] 2) :=
  ⟨by decide, by decide⟩

/-- C6 amended: `dlis` returns a literal whose variable maximizes the
TOTAL occurrence count (positive plus negative) over all variables of the
formula, and the returned literal is positive exactly when the positive
count of that variable is at least its negative count. -/
theorem claim_C6_dlis_total_count {cnf : Formula}
    (hne : cnf ≠ []) (hcl : ∀ c ∈ cnf, c ≠ []) (hnz : ∀ l ∈ litsOf cnf, l ≠ 0) :
    ∃ L, dlis cnf = some L ∧ L ≠ 0 ∧
      (∀ w ∈ fvars cnf,
        posCountD cnf (w : Int) + negCountD cnf (w : Int) ≤
          posCountD cnf (L.natAbs : Int) + negCountD cnf (L.natAbs : Int)) ∧
      (0 < L ↔ negCountD cnf (L.natAbs : Int) ≤ posCountD cnf (L.natAbs : Int)) := by
  have hlits : litsOf cnf ≠ [] := by
    cases cnf with
    | nil => exact absurd rfl hne
    | cons c rest => exact litsOf_ne_nil (List.mem_cons_self _ _) (hcl c (List.mem_cons_self _ _))
  rcases pymaxBy_isSome (fun v => posCountD cnf v + negCountD cnf v)
    (dlis_keys_ne_nil hlits) with ⟨v, hv⟩
  have hvmem := pymaxBy_mem hv
  have hvpos : 0 < v := dlis_key_pos hnz hvmem
  have hvmax := pymaxBy_le hv
  refine ⟨if negCountD cnf v ≤ posCountD cnf v then v else -v, by simp only [dlis, hv], ?_, ?_, ?_⟩
  · by_cases hc : negCountD cnf v ≤ posCountD cnf v
    · rw [if_pos hc]
      omega
    · rw [if_neg hc]
      omega
  · have hLabs : (((if negCountD cnf v ≤ posCountD cnf v then v else -v).natAbs : Int)) = v := by
      by_cases hc : negCountD cnf v ≤ posCountD cnf v
      · rw [if_pos hc]
        omega
      · rw [if_neg hc]
        omega
    intro w hw
    rw [hLabs]
    exact hvmax _ (dlis_var_candidate hnz hw)
  · have hLabs : (((if negCountD cnf v ≤ posCountD cnf v then v else -v).natAbs : Int)) = v := by
      by_cases hc : negCountD cnf v ≤ posCountD cnf v
      · rw [if_pos hc]
        omega
      · rw [if_neg hc]
        omega
    rw [hLabs]
    constructor
    · intro hLpos
      by_cases hc : negCountD cnf v ≤ posCountD cnf v
      · exact hc
      · rw [if_neg hc] at hLpos
        omega
    · intro hc
      rw [if_pos hc]
      exact hvpos

/-- C6 witness: instance of the amended theorem on `[[1, 2], [-1, 3]]`. -/
theorem claim_C6_witness :
    ∃ L, dlis [[1, 2], [-1, 3]] = some L ∧ L ≠ 0 ∧
      (∀ w ∈ fvars [[1, 2], [-1, 3]],
        posCountD [[1, 2], [-1, 3]] (w : Int) + negCountD [[1, 2], [-1, 3]] (w : Int) ≤
          posCountD [[1, 2], [-1, 3]] (L.natAbs : Int) +
            negCountD [[1, 2], [-1, 3]] (L.natAbs : Int)) ∧
      (0 < L ↔ negCountD [[1, 2], [-1, 3]] (L.natAbs : Int) ≤
        posCountD [[1, 2], [-1, 3]] (L.natAbs : Int)) :=
  claim_C6_dlis_total_count (by decide) (by decide) (by decide)

/-- C7: two successive top-level `solve` calls on the same formula within
one process return different assignment sequences, because the default
`assignments=[]` list object is shared and mutated in place by
`assignments += unit_assignments` (it is shared even across freshly
constructed solver instances, being bound to the function object): the
first call on `[[1]]` returns `[1]`, the second `[1, 1]`. -/
theorem claim_C7_default_mutation :
    solve 1 2 [[1]] [] initMetrics = SolveRes.done [1] ⟨0, 0, 0, 1, 1⟩ ∧
    defaultAfter [[1]] [] = [1] ∧
    solve 1 2 [[1]] (defaultAfter [[1]] []) ⟨0, 0, 0, 1, 1⟩ =
      SolveRes.done [1, 1] ⟨0, 0, 0, 2, 2⟩ ∧
    ([1] : List Int) ≠ [1, 1] :=
  ⟨by decide, by decide, by decide, by decide⟩

/-- C8: any assignment sequence returned by a top-level `solve` call
(empty incoming assignments) mentions each variable at most once; hence,
on well-formed input, it never contains a literal together with its
negation. -/
theorem claim_C8_assignment_consistent {s fuel : Nat} {cnf : Formula} {m : Metrics}
    {res : List Int} {mres : Metrics}
    (h : solve s fuel cnf [] m = SolveRes.done res mres) :
    (res.map Int.natAbs).Nodup ∧
    (wfFormula cnf → ∀ l ∈ res, -l ∉ res) := by
  have hnd := solve_nodup_aux fuel s cnf [] m h (by simp) List.nodup_nil
  refine ⟨hnd, ?_⟩
  intro hwf l hl hmem
  have hnz := solve_res_nonzero fuel s cnf [] m h hwf (by simp)
  have hl0 := hnz l hl
  have hinj := List.inj_on_of_nodup_map hnd
  have : l = -l := hinj hl hmem (by rw [Int.natAbs_neg])
  omega

/-- C8 witness: the run on `[[1], [-1, 2]]` returns `[1, 2]`, whose
variables `[1, 2]` are distinct. -/
theorem claim_C8_witness :
    (([1, 2] : List Int).map Int.natAbs).Nodup ∧
    (wfFormula [[1], [-1, 2]] → ∀ l ∈ ([1, 2] : List Int), -l ∉ ([1, 2] : List Int)) :=
  @claim_C8_assignment_consistent 1 2 [[1], [-1, 2]] initMetrics [1, 2] ⟨0, 0, 0, 2, 2⟩
    (by decide)

/-- C9: after a top-level `solve` call on a freshly constructed solver
(metrics all zero) that returns normally, all five counters are
non-negative and the backtrack count never exceeds the decision count. -/
theorem claim_C9_metrics_sanity {s fuel : Nat} {cnf : Formula}
    {res : List Int} {mres : Metrics}
    (h : solve s fuel cnf [] initMetrics = SolveRes.done res mres) :
    0 ≤ mres.decisions ∧ 0 ≤ mres.backtracks ∧ 0 ≤ mres.conflicts ∧
    0 ≤ mres.propagations ∧ 0 ≤ mres.unit_clauses_resolved ∧
    mres.backtracks ≤ mres.decisions := by
  have hdb := solve_db fuel s cnf [] initMetrics h
  have e1 : initMetrics.decisions = 0 := rfl
  have e2 : initMetrics.backtracks = 0 := rfl
  exact ⟨Nat.zero_le _, Nat.zero_le _, Nat.zero_le _, Nat.zero_le _, Nat.zero_le _, by omega⟩

/-- C9 witness: concrete run on `[[1, 2], [-1, 2], [1, -2]]`. -/
theorem claim_C9_witness :
    0 ≤ (⟨1, 0, 0, 1, 1⟩ : Metrics).decisions ∧
    0 ≤ (⟨1, 0, 0, 1, 1⟩ : Metrics).backtracks ∧
    0 ≤ (⟨1, 0, 0, 1, 1⟩ : Metrics).conflicts ∧
    0 ≤ (⟨1, 0, 0, 1, 1⟩ : Metrics).propagations ∧
    0 ≤ (⟨1, 0, 0, 1, 1⟩ : Metrics).unit_clauses_resolved ∧
    (⟨1, 0, 0, 1, 1⟩ : Metrics).backtracks ≤ (⟨1, 0, 0, 1, 1⟩ : Metrics).decisions :=
  @claim_C9_metrics_sanity 1 3 [[1, 2], [-1, 2], [1, -2]] [1, 2] ⟨1, 0, 0, 1, 1⟩ (by decide)

/-- C10: if `propagate_unit` returns a formula (no conflict) for a
nonzero literal `u`, no clause of the result contains `u` or `-u`; the
variable `|u|` is eliminated from the formula entirely. -/
theorem claim_C10_variable_eliminated {cnf : Formula} {u : Int} {r : Formula}
    (_hu : u ≠ 0) (h : propagate_unit cnf u = some r) :
    ∀ c ∈ r, u ∉ c ∧ -u ∉ c ∧ ∀ l ∈ c, l.natAbs ≠ u.natAbs := by
  intro c hc
  have hl : ∀ l ∈ c, l ∈ litsOf cnf ∧ l ≠ u ∧ l ≠ -u :=
    fun l hlc => propagate_unit_lits h l (mem_litsOf.mpr ⟨c, hc, hlc⟩)
  refine ⟨?_, ?_, ?_⟩
  · intro hmem
    exact (hl u hmem).2.1 rfl
  · intro hmem
    exact (hl (-u) hmem).2.2 rfl
  · intro l hlc he
    rcases Int.natAbs_eq_natAbs_iff.mp he with e | e
    · exact (hl l hlc).2.1 e
    · exact (hl l hlc).2.2 e

/-- C10 witness: propagating `1` through `[[1, 2], [-1, 3], [3]]` yields
`[[3], [3]]`, from which variable 1 is absent. -/
theorem claim_C10_witness :
    (1 : Int) ∉ ([3] : Clause) ∧ -(1 : Int) ∉ ([3] : Clause) ∧
      ∀ l ∈ ([3] : Clause), l.natAbs ≠ (1 : Int).natAbs :=
  @claim_C10_variable_eliminated [[1, 2], [-1, 3], [3]] 1 [[3], [3]] (by decide) (by decide)
    [3] (by decide)

example : propagate_unit [[1, 2], [-1, 3], [3]] 1 = some [[3], [3]] := by decide
example : propagate_unit [[1, 2], [-1]] 1 = none := by decide
example : solve 1 2 [[1], [-1, 2]] [] initMetrics = SolveRes.done [1, 2] ⟨0, 0, 0, 2, 2⟩ := by
  decide
example : solve 1 1 [[1], [-1]] [] initMetrics = SolveRes.done [] ⟨0, 0, 1, 1, 1⟩ := by decide
example : solve 1 1 [] [] initMetrics = SolveRes.done [] initMetrics := by decide
example : solve 1 1 [([] : Clause)] [] initMetrics = SolveRes.exn := by decide
example : dlis [[1, 2], [1, 2], [-1, 2], [-1]] = some 1 := by decide
example : solve 1 3 [[1, 2], [-1, 2], [1, -2]] [] initMetrics =
    SolveRes.done [1, 2] ⟨1, 0, 0, 1, 1⟩ := by decide

end SatSolver
